import Mathlib

/-!
# Block-indexed deque (`src/deque.h`): embedding and verification

The container `Deque<T>` keeps a directory `data_` of block pointers, each block
being raw storage for `kBlockSize_ = 16` elements, together with the counters
`data_sz_`, `sz_` and `ia_front`.

Embedding conventions.

* `size_t` values are natural numbers below `2 ^ 64`; every `size_t` operation of the
  source is written with an explicit reduction modulo `2 ^ 64` (`wrap`, `usub`).
* A block pointer is modelled by what it points to: `Slot.null` is `nullptr`,
  `Slot.owned cells` is a pointer to a live buffer whose cell `j` is `some v` when an
  element is constructed there and `none` when the storage is raw, and `Slot.dangling`
  is a pointer whose buffer has been passed to `delete[]` (the source never resets such
  a pointer).  The source never stores one block pointer in two directory slots at once.
* Operations whose C++ behaviour is undefined (writing through `nullptr`, touching a
  freed buffer, indexing the directory outside its bounds, reading or destroying raw
  storage) return `Except.error` with the corresponding `Fault`; `Fault.out_of_range` is
  the `std::out_of_range` exception of `at`.
* Constructing or copying an element of type `T` is taken not to throw, except in
  `push_back_throw`, which gives the state in which a throwing copy leaves `push_back`.
* `insert` and `erase` touch the cell at `end()`; the flag `trivial` says whether `T` is
  trivially copyable and destructible, in which case assigning to or destroying a cell
  without a constructed element is defined.  Their loops take a bound `fuel` on the number
  of iterations and report `Fault.out_of_fuel` when it is too small.
* The directory iterator `it_` of `base_iterator` is modelled by its position in the
  directory (an integer); `int` is the 32-bit and `ptrdiff_t` the 64-bit two's complement
  type, and conversions to them reduce modulo `2 ^ 32` and `2 ^ 64`.

The file first gives the embedding, then the invariants used in the proofs, then working
lemmas, and last one theorem for each claim.
-/

namespace DequeModel

/-- Ways in which a call can fail: the exception thrown by `at`, undefined behaviour, or
(`out_of_fuel`) a loop of the model that was given too few iterations. -/
inductive Fault where
  | out_of_range
  | null_deref
  | use_after_free
  | out_of_bounds
  | uninit
  | div_by_zero
  | out_of_fuel
  deriving DecidableEq, Repr

/-- A directory entry `T*`: null, a pointer to a freed buffer, or a pointer to a live buffer. -/
inductive Slot (α : Type) where
  | null
  | dangling
  | owned (cells : List (Option α))
  deriving DecidableEq, Repr

/-- The data members of `Deque<T>`. -/
structure Deque (α : Type) where
  data_ : List (Slot α)
  data_sz_ : Nat
  sz_ : Nat
  ia_front : Nat
  deriving DecidableEq, Repr

/-- The constant `kBlockSize_`. -/
def kBlockSize_ : Nat := 16

/-- Reduction of a `size_t` result modulo `2 ^ 64`. -/
def wrap (n : Nat) : Nat := n % 2 ^ 64

/-- Unsigned subtraction of `size_t` values. -/
def usub (a b : Nat) : Nat := (a + 2 ^ 64 - b % 2 ^ 64) % 2 ^ 64

/-- The result of `new char[kBlockSize_ * sizeof(T)]`: sixteen raw cells. -/
def new_block {α : Type} : Slot α := Slot.owned (List.replicate kBlockSize_ none)

/-- `ia_from_id`: `id + ia_front`. -/
def ia_from_id {α : Type} (d : Deque α) (id : Nat) : Nat := wrap (id + d.ia_front)

/-- `ib_from_id`: block index of a logical index. -/
def ib_from_id {α : Type} (d : Deque α) (id : Nat) : Nat := ia_from_id d id / kBlockSize_

/-- `ic_from_id`: cell index of a logical index. -/
def ic_from_id {α : Type} (d : Deque α) (id : Nat) : Nat := ia_from_id d id % kBlockSize_

/-- Placement construction `new (data_[ib] + ic) T(el)`. -/
def construct {α : Type} (data : List (Slot α)) (ib ic : Nat) (el : α) :
    Except Fault (List (Slot α)) :=
  match data[ib]? with
  | none => .error .out_of_bounds
  | some .null => .error .null_deref
  | some .dangling => .error .use_after_free
  | some (.owned cells) =>
    if ic < cells.length then .ok (data.set ib (.owned (cells.set ic (some el))))
    else .error .out_of_bounds

/-- Destructor call `(data_[ib] + ic)->~T()`. -/
def destroy {α : Type} (data : List (Slot α)) (ib ic : Nat) : Except Fault (List (Slot α)) :=
  match data[ib]? with
  | none => .error .out_of_bounds
  | some .null => .error .null_deref
  | some .dangling => .error .use_after_free
  | some (.owned cells) =>
    match cells[ic]? with
    | none => .error .out_of_bounds
    | some none => .error .uninit
    | some (some _) => .ok (data.set ib (.owned (cells.set ic none)))

/-- Deallocation `delete[] reinterpret_cast<char*>(data_[ib])`; the pointer is left in place. -/
def release {α : Type} (data : List (Slot α)) (ib : Nat) : Except Fault (List (Slot α)) :=
  match data[ib]? with
  | none => .error .out_of_bounds
  | some .null => .ok data
  | some .dangling => .error .use_after_free
  | some (.owned _) => .ok (data.set ib .dangling)

/-- Assignment `data_[ib] = new char[...]`. -/
def acquire {α : Type} (data : List (Slot α)) (ib : Nat) : Except Fault (List (Slot α)) :=
  if ib < data.length then .ok (data.set ib new_block) else .error .out_of_bounds

/-- Reading the element `data_[ib][ic]`. -/
def read {α : Type} (data : List (Slot α)) (ib ic : Nat) : Except Fault α :=
  match data[ib]? with
  | none => .error .out_of_bounds
  | some .null => .error .null_deref
  | some .dangling => .error .use_after_free
  | some (.owned cells) =>
    match cells[ic]? with
    | none => .error .out_of_bounds
    | some none => .error .uninit
    | some (some v) => .ok v

/-- `Deque<T>::reallocate(num_of_blocks)`.  The three loops fill the new directory; the
guard is what they need to stay inside `new_data` and `data_`. -/
def reallocate {α : Type} (d : Deque α) (num_of_blocks : Nat) : Except Fault (Deque α) :=
  let front_gap := usub num_of_blocks d.data_sz_ / 2
  if front_gap + d.data_sz_ ≤ num_of_blocks ∧ d.data_sz_ ≤ d.data_.length then
    .ok { data_ := (List.range num_of_blocks).map (fun i =>
            if i < front_gap then Slot.null
            else if i < front_gap + d.data_sz_ then d.data_.getD (i - front_gap) Slot.null
            else Slot.null)
          data_sz_ := num_of_blocks
          sz_ := d.sz_
          ia_front := wrap (d.ia_front + wrap (front_gap * kBlockSize_)) }
  else .error .out_of_bounds

/-- `Deque<T>::Deque()`. -/
def Deque.new {α : Type} : Deque α :=
  { data_ := [Slot.null, new_block], data_sz_ := 2, sz_ := 0, ia_front := kBlockSize_ }

/-- `Deque<T>::size()`. -/
def size {α : Type} (d : Deque α) : Nat := d.sz_

/-- `Deque<T>::operator[](id)`, read as a value. -/
def index {α : Type} (d : Deque α) (id : Nat) : Except Fault α :=
  read d.data_ (ib_from_id d id) (ic_from_id d id)

/-- `Deque<T>::at(id)`: the returned element (or failure) and the state after the call. -/
def at_ {α : Type} (d : Deque α) (id : Nat) : Except Fault α × Deque α :=
  if id ≥ d.sz_ then (.error .out_of_range, d) else (index d id, d)

/-- `Deque<T>::push_back(el)`. -/
def push_back {α : Type} (d : Deque α) (el : α) : Except Fault (Deque α) := do
  let d1 ←
    (if ic_from_id d d.sz_ = kBlockSize_ - 1 then do
      let d0 ←
        (if ib_from_id d d.sz_ = usub d.data_sz_ 1 then
          reallocate d (if d.data_sz_ = 0 then 1 else wrap (d.data_sz_ * 2))
        else pure d)
      let data ← acquire d0.data_ (wrap (ib_from_id d0 d0.sz_ + 1))
      pure { d0 with data_ := data }
    else pure d)
  let data ← construct d1.data_ (ib_from_id d1 d1.sz_) (ic_from_id d1 d1.sz_) el
  pure { d1 with data_ := data, sz_ := wrap (d1.sz_ + 1) }

/-- `Deque<T>::pop_back()`. -/
def pop_back {α : Type} (d : Deque α) : Except Fault (Deque α) := do
  let data1 ← destroy d.data_ (ib_from_id d (usub d.sz_ 1)) (ic_from_id d (usub d.sz_ 1))
  let data2 ←
    (if ic_from_id d (usub d.sz_ 1) = 0 then release data1 (ib_from_id d (usub d.sz_ 1))
    else pure data1)
  pure { d with data_ := data2, sz_ := usub d.sz_ 1,
                ia_front := if usub d.sz_ 1 = 0 then 0 else d.ia_front }

/-- `Deque<T>::push_front(el)`. -/
def push_front {α : Type} (d : Deque α) (el : α) : Except Fault (Deque α) := do
  let d1 ←
    (if ic_from_id d 0 = 0 then do
      let d0 ←
        (if ib_from_id d 0 = 0 ∧ d.sz_ > 0 then reallocate d (wrap (d.data_sz_ * 2))
        else pure d)
      let slot ←
        (if d0.data_sz_ = 0 then Except.error Fault.div_by_zero
        else pure (wrap (usub (ib_from_id d0 0) 1 + d0.data_sz_) % d0.data_sz_))
      let data ← acquire d0.data_ slot
      let data ← construct data slot (kBlockSize_ - 1) el
      pure { d0 with data_ := data }
    else do
      let data ← construct d.data_ (ib_from_id d 0) (usub (ic_from_id d 0) 1) el
      pure { d with data_ := data })
  pure { d1 with ia_front := usub d1.ia_front 1, sz_ := wrap (d1.sz_ + 1) }

/-- `Deque<T>::pop_front()`. -/
def pop_front {α : Type} (d : Deque α) : Except Fault (Deque α) := do
  let data1 ← destroy d.data_ (ib_from_id d 0) (ic_from_id d 0)
  let data2 ←
    (if ic_from_id d 0 = kBlockSize_ - 1 then release data1 (ib_from_id d 0) else pure data1)
  pure { d with data_ := data2, sz_ := usub d.sz_ 1,
                ia_front := if usub d.sz_ 1 = 0 then 0 else wrap (d.ia_front + 1) }

/-- The four end operations, as a script of calls. -/
inductive Op (α : Type) where
  | push_back (el : α)
  | push_front (el : α)
  | pop_back
  | pop_front
  deriving DecidableEq, Repr

/-- One call of the script on the container. -/
def Op.apply {α : Type} (d : Deque α) : Op α → Except Fault (Deque α)
  | .push_back el => DequeModel.push_back d el
  | .push_front el => DequeModel.push_front d el
  | .pop_back => DequeModel.pop_back d
  | .pop_front => DequeModel.pop_front d

/-- Running a script of calls from a given state, stopping at the first fault. -/
def run {α : Type} : List (Op α) → Deque α → Except Fault (Deque α)
  | [], d => .ok d
  | op :: ops, d =>
    match op.apply d with
    | .ok d1 => run ops d1
    | .error e => .error e

/-- The same calls on a plain list. -/
def Op.spec {α : Type} (l : List α) : Op α → List α
  | .push_back el => l ++ [el]
  | .push_front el => el :: l
  | .pop_back => l.dropLast
  | .pop_front => l.tail

/-- The list obtained by running a script on a list. -/
def runSpec {α : Type} (ops : List (Op α)) (l : List α) : List α := ops.foldl Op.spec l

/-- The copy loop over `j` of `Deque(const Deque&)` for directory slot `i`: cell `j` of the
fresh buffer receives a copy of `other.data_[i][j]` when the guard of the source holds.
The element copy itself is taken not to throw. -/
def copy_cells {α : Type} (other : Deque α) (i : Nat) : Except Fault (List (Option α)) :=
  (List.range kBlockSize_).foldlM
    (fun cells j =>
      if wrap (wrap (i * kBlockSize_) + j) ≤ ia_from_id other (usub other.sz_ 1) ∧
          wrap (wrap (i * kBlockSize_) + j) ≥ other.ia_front then
        match read other.data_ i j with
        | .ok v => .ok (cells.set j (some v))
        | .error e => .error e
      else .ok cells)
    (List.replicate kBlockSize_ none)

/-- The body of the loop over `i` of `Deque(const Deque&)`: a null entry stays null, any
other entry receives a fresh buffer filled by `copy_cells`. -/
def copy_slot {α : Type} (other : Deque α) (i : Nat) : Except Fault (Slot α) :=
  match other.data_[i]? with
  | none => .error .out_of_bounds
  | some .null => .ok .null
  | some .dangling =>
    match copy_cells other i with
    | .ok cells => .ok (.owned cells)
    | .error e => .error e
  | some (.owned _) =>
    match copy_cells other i with
    | .ok cells => .ok (.owned cells)
    | .error e => .error e

/-- `Deque<T>::Deque(const Deque&)`, the path on which no element copy throws. -/
def copy {α : Type} (other : Deque α) : Except Fault (Deque α) := do
  let data ← (List.range other.data_sz_).mapM (copy_slot other)
  pure { data_ := data, data_sz_ := other.data_sz_, sz_ := other.sz_, ia_front := other.ia_front }

/-- Conversion of an integer value to `int` (32 bits, two's complement). -/
def to_int (z : Int) : Int :=
  if z % 2 ^ 32 < 2 ^ 31 then z % 2 ^ 32 else z % 2 ^ 32 - 2 ^ 32

/-- Conversion of an integer value to `size_t`. -/
def to_size_t (z : Int) : Int := z % 2 ^ 64

/-- Conversion of an integer value to `ptrdiff_t` (64 bits, two's complement). -/
def to_ptrdiff (z : Int) : Int :=
  if z % 2 ^ 64 < 2 ^ 63 then z % 2 ^ 64 else z % 2 ^ 64 - 2 ^ 64

/-- The members of `base_iterator`: the position `it_` in the directory and the cell `cell_`. -/
structure base_iterator where
  it_ : Int
  cell_ : Nat
  deriving DecidableEq, Repr

/-- The constructor `base_iterator(deque, id)`. -/
def base_iterator.ofDeque {α : Type} (d : Deque α) (id : Nat) : base_iterator :=
  { it_ := (ib_from_id d id : Nat), cell_ := ic_from_id d id }

/-- `base_iterator::operator<`. -/
def base_iterator.lt (a other : base_iterator) : Bool :=
  decide (a.it_ < other.it_) || (decide (a.it_ = other.it_) && decide (a.cell_ < other.cell_))

/-- `base_iterator::operator>`. -/
def base_iterator.gt (a other : base_iterator) : Bool := other.lt a

/-- `base_iterator::operator<=`. -/
def base_iterator.le (a other : base_iterator) : Bool := !(a.gt other)

/-- `base_iterator::operator*`, read as a value in the directory of `d`. -/
def base_iterator.deref {α : Type} (d : Deque α) (a : base_iterator) : Except Fault α :=
  if 0 ≤ a.it_ then read d.data_ a.it_.toNat a.cell_ else .error .out_of_bounds

/-- `base_iterator::operator-(const base_iterator&)`, with its `int` result. -/
def base_iterator.minus (a other : base_iterator) : Int :=
  to_int (to_size_t (to_size_t (to_size_t (to_size_t (a.it_ - other.it_) * kBlockSize_)
    + a.cell_) - other.cell_))

/-- `base_iterator::operator+=(int x)`. -/
def base_iterator.add_assign (a : base_iterator) (x : Int) : base_iterator :=
  { it_ := a.it_ + to_ptrdiff (to_size_t (to_size_t x + a.cell_) / kBlockSize_)
    cell_ := (to_size_t (to_size_t x + a.cell_) % kBlockSize_).toNat }

/-- `base_iterator::operator+(int num)`. -/
def base_iterator.plus (a : base_iterator) (num : Int) : base_iterator := a.add_assign num

/-- `base_iterator::operator++()`. -/
def base_iterator.incr (a : base_iterator) : base_iterator :=
  if a.cell_ = kBlockSize_ - 1 then { it_ := a.it_ + 1, cell_ := 0 }
  else { it_ := a.it_, cell_ := a.cell_ + 1 }

/-- `Deque<T>::begin()`. -/
def begin_ {α : Type} (d : Deque α) : base_iterator := base_iterator.ofDeque d 0

/-- `Deque<T>::end()`. -/
def end_ {α : Type} (d : Deque α) : base_iterator := base_iterator.ofDeque d d.sz_

/-- The Store invariant of the specification: every logical index maps into the directory
to a slot that owns a buffer, and a cell holds a constructed element exactly when its
flattened address lies in the live range. -/
def StoreInv {α : Type} (d : Deque α) : Prop :=
  (∀ i, i < d.sz_ →
      (d.ia_front + i) / kBlockSize_ < d.data_sz_ ∧
      ∃ cells, d.data_[(d.ia_front + i) / kBlockSize_]? = some (Slot.owned cells)) ∧
  (∀ b c cells, c < kBlockSize_ → d.data_[b]? = some (Slot.owned cells) →
      ((∃ v, cells[c]? = some (some v)) ↔
        (d.ia_front ≤ b * kBlockSize_ + c ∧ b * kBlockSize_ + c < d.ia_front + d.sz_)))

/-- A call that adds an element (`push_back` or `push_front`). -/
def Op.isPush {α : Type} : Op α → Bool
  | .push_back _ => true
  | .push_front _ => true
  | .pop_back => false
  | .pop_front => false

/-- The element constructed at flattened address `a` of a directory, if any. -/
def cellAt {α : Type} (data : List (Slot α)) (a : Nat) : Option α :=
  match data[a / 16]? with
  | some (.owned cells) =>
    match cells[a % 16]? with
    | some (some v) => some v
    | _ => none
  | _ => none

/-- Directory slot `b` points to a live buffer of sixteen cells. -/
def OwnedAt {α : Type} (data : List (Slot α)) (b : Nat) : Prop :=
  ∃ cells, data[b]? = some (Slot.owned cells) ∧ cells.length = 16

/-- Representation invariant of the states reached by pushes, relative to the abstract
contents `l`; `r` is the number of further back cells (0 or 1) already backed by a buffer. -/
structure InvR {α : Type} (d : Deque α) (l : List α) (r : Nat) : Prop where
  len : d.data_.length = d.data_sz_
  sz : d.sz_ = l.length
  small : d.sz_ < 2 ^ 60
  even : d.data_sz_ % 2 = 0
  two : 2 ≤ d.data_sz_
  lo : d.ia_front ≤ 8 * d.data_sz_
  hi : 8 * d.data_sz_ ≤ d.ia_front + d.sz_
  cap : d.ia_front + d.sz_ + r < 16 * d.data_sz_
  grow : d.data_sz_ = 2 ∨ 4 * d.data_sz_ ≤ d.sz_ + 1 + r
  own : ∀ b, d.ia_front / 16 ≤ b → b ≤ (d.ia_front + d.sz_ + r) / 16 → OwnedAt d.data_ b
  cells : ∀ i (h : i < l.length), cellAt d.data_ (d.ia_front + i) = some l[i]

/-- What a run of pops from the front relies on: `n` elements are constructed at the
flattened addresses `ia_front`, ..., `ia_front + n - 1`. -/
structure Live {α : Type} (d : Deque α) (n : Nat) : Prop where
  sz : d.sz_ = n
  nowrap : d.ia_front + n < 2 ^ 64
  cells : ∀ i, i < n → ∃ v, cellAt d.data_ (d.ia_front + i) = some v

/-- `base_iterator::operator--()`. -/
def base_iterator.decr (a : base_iterator) : base_iterator :=
  if a.cell_ = 0 then { it_ := a.it_ - 1, cell_ := kBlockSize_ - 1 }
  else { it_ := a.it_, cell_ := a.cell_ - 1 }

/-- The `size_t` value `x - cell_ + kBlockSize_ - 1` that `operator-=(int x)` computes twice. -/
def base_iterator.sub_offset (a : base_iterator) (x : Int) : Int :=
  to_size_t (to_size_t (to_size_t (to_size_t x - a.cell_) + kBlockSize_) - 1)

/-- `base_iterator::operator-=(int x)`: `diff` and `shift` are `int` variables. -/
def base_iterator.sub_assign (a : base_iterator) (x : Int) : base_iterator :=
  { it_ := a.it_ - to_int (a.sub_offset x / kBlockSize_)
    cell_ := (to_size_t (to_int (to_size_t
      (to_size_t ((kBlockSize_ : Int) - 1) - a.sub_offset x % kBlockSize_)))).toNat }

/-- `base_iterator::operator-(int num)`. -/
def base_iterator.minus_int (a : base_iterator) (num : Int) : base_iterator := a.sub_assign num

/-- `Deque<T>::cbegin()`. -/
def cbegin {α : Type} (d : Deque α) : base_iterator := base_iterator.ofDeque d 0

/-- `Deque<T>::cend()`. -/
def cend {α : Type} (d : Deque α) : base_iterator := base_iterator.ofDeque d d.sz_

/-- `std::reverse_iterator` over `base_iterator`: it stores the wrapped iterator `current`. -/
structure reverse_iterator where
  current : base_iterator
  deriving DecidableEq, Repr

/-- `std::reverse_iterator::operator*`: the element just before `current`. -/
def reverse_iterator.deref {α : Type} (d : Deque α) (r : reverse_iterator) : Except Fault α :=
  r.current.decr.deref d

/-- `std::reverse_iterator::operator++`: `--current`. -/
def reverse_iterator.incr (r : reverse_iterator) : reverse_iterator :=
  { current := r.current.decr }

/-- `Deque<T>::rbegin()`: `std::reverse_iterator(end())`. -/
def rbegin {α : Type} (d : Deque α) : reverse_iterator := { current := end_ d }

/-- `Deque<T>::crbegin()`: `std::reverse_iterator(cbegin())`, as the source has it. -/
def crbegin {α : Type} (d : Deque α) : reverse_iterator := { current := cbegin d }

/-- `Deque<T>::rend()`: `std::reverse_iterator(begin())`. -/
def rend {α : Type} (d : Deque α) : reverse_iterator := { current := begin_ d }

/-- `Deque<T>::crend()`: `std::reverse_iterator(cbegin())`. -/
def crend {α : Type} (d : Deque α) : reverse_iterator := { current := cbegin d }

/-- The loop `for (; i < size; ++i) push_back(el)` of the fill constructor. -/
def fill_loop {α : Type} : Nat → Deque α → α → Except Fault (Deque α)
  | 0, d, _ => .ok d
  | n + 1, d, el =>
    match push_back d el with
    | .ok d1 => fill_loop n d1 el
    | .error e => .error e

/-- `Deque<T>::Deque(size_t size, const T& el)`, the path on which no `push_back` throws. -/
def Deque.fill {α : Type} (size : Nat) (el : α) : Except Fault (Deque α) :=
  fill_loop size Deque.new el

/-- `Deque<T>::Deque(size_t size)`: `Deque(size, T())`. -/
def Deque.fill_default {α : Type} [Inhabited α] (size : Nat) : Except Fault (Deque α) :=
  Deque.fill size default

/-- `Deque<T>::push_back(el)` when the copy `T(el)` of line 330 throws: the container state
in which the exception leaves the function.  The source has no handler, so this is the state
reached just before the placement construction. -/
def push_back_throw {α : Type} (d : Deque α) : Except Fault (Deque α) :=
  (if ic_from_id d d.sz_ = kBlockSize_ - 1 then do
    let d0 ←
      (if ib_from_id d d.sz_ = usub d.data_sz_ 1 then
        reallocate d (if d.data_sz_ = 0 then 1 else wrap (d.data_sz_ * 2))
      else pure d)
    let data ← acquire d0.data_ (wrap (ib_from_id d0 d0.sz_ + 1))
    pure { d0 with data_ := data }
  else pure d)

/-- Copy assignment `data_[ib][ic] = v`.  Assigning to a cell that holds no constructed
element is defined only when `T` is trivially copyable (`trivial = true`). -/
def assign {α : Type} (trivial : Bool) (data : List (Slot α)) (ib ic : Nat) (v : α) :
    Except Fault (List (Slot α)) :=
  match data[ib]? with
  | none => .error .out_of_bounds
  | some .null => .error .null_deref
  | some .dangling => .error .use_after_free
  | some (.owned cells) =>
    match cells[ic]? with
    | none => .error .out_of_bounds
    | some none =>
      if trivial then .ok (data.set ib (.owned (cells.set ic (some v)))) else .error .uninit
    | some (some _) => .ok (data.set ib (.owned (cells.set ic (some v))))

/-- Destructor call on `data_[ib] + ic` where `T` may be trivially destructible: then the
call does nothing to a cell that holds no constructed element. -/
def destroy_t {α : Type} (trivial : Bool) (data : List (Slot α)) (ib ic : Nat) :
    Except Fault (List (Slot α)) :=
  match data[ib]? with
  | none => .error .out_of_bounds
  | some .null => .error .null_deref
  | some .dangling => .error .use_after_free
  | some (.owned cells) =>
    match cells[ic]? with
    | none => .error .out_of_bounds
    | some none => if trivial then .ok data else .error .uninit
    | some (some _) => .ok (data.set ib (.owned (cells.set ic none)))

/-- The assignment `*it = v` through an iterator. -/
def base_iterator.assign_at {α : Type} (trivial : Bool) (d : Deque α) (a : base_iterator)
    (v : α) : Except Fault (Deque α) :=
  if 0 ≤ a.it_ then
    match assign trivial d.data_ a.it_.toNat a.cell_ v with
    | .ok data => .ok { d with data_ := data }
    | .error e => .error e
  else .error .out_of_bounds

/-- The loop `for (; it < end() - 1; ++it) *it = *(it + 1);` of `erase`, run for at most
`fuel` iterations; it returns the container and the final `it`. -/
def erase_loop {α : Type} (trivial : Bool) :
    Nat → Deque α → base_iterator → Except Fault (Deque α × base_iterator)
  | fuel, d, it =>
    if it.lt ((end_ d).minus_int 1) then
      match fuel with
      | 0 => .error .out_of_fuel
      | f + 1 =>
        match (it.plus 1).deref d with
        | .error e => .error e
        | .ok v =>
          match it.assign_at trivial d v with
          | .error e => .error e
          | .ok d1 => erase_loop trivial f d1 it.incr
    else .ok (d, it)

/-- `Deque<T>::erase(it)`, with a bound `fuel` on the iterations of its loop. -/
def erase {α : Type} (trivial : Bool) (fuel : Nat) (d : Deque α) (it : base_iterator) :
    Except Fault (Deque α) :=
  match erase_loop trivial fuel d it with
  | .error e => .error e
  | .ok (d1, it1) =>
    if 0 ≤ it1.it_ then
      match destroy_t trivial d1.data_ it1.it_.toNat it1.cell_ with
      | .ok data => .ok { d1 with data_ := data, sz_ := usub d1.sz_ 1 }
      | .error e => .error e
    else .error .out_of_bounds

/-- The loop `for (auto i_end = end(); it < i_end; --i_end) *i_end = *(i_end - 1);` of
`insert`, run for at most `fuel` iterations. -/
def insert_loop {α : Type} (trivial : Bool) :
    Nat → Deque α → base_iterator → base_iterator → Except Fault (Deque α)
  | fuel, d, it, i_end =>
    if it.lt i_end then
      match fuel with
      | 0 => .error .out_of_fuel
      | f + 1 =>
        match (i_end.minus_int 1).deref d with
        | .error e => .error e
        | .ok v =>
          match i_end.assign_at trivial d v with
          | .error e => .error e
          | .ok d1 => insert_loop trivial f d1 it i_end.decr
    else .ok d

/-- `Deque<T>::insert(it, el)`, with a bound `fuel` on the iterations of its loop. -/
def insert {α : Type} (trivial : Bool) (fuel : Nat) (d : Deque α) (it : base_iterator)
    (el : α) : Except Fault (Deque α) :=
  match insert_loop trivial fuel d it (end_ d) with
  | .error e => .error e
  | .ok d1 =>
    match it.assign_at trivial d1 el with
    | .error e => .error e
    | .ok d2 =>
      match index d2 d2.sz_ with
      | .error e => .error e
      | .ok v => push_back d2 v

/-- Directory slot `b` held a live buffer in `d` and holds a freed one in `d1`: the call that
led from `d` to `d1` released the block. -/
def Released {α : Type} (d d1 : Deque α) (b : Nat) : Prop :=
  (∃ cells, d.data_[b]? = some (Slot.owned cells)) ∧ d1.data_[b]? = some Slot.dangling

/-- Some cell of block `b` lies in the live range `[ia_front, ia_front + sz_)` of `d`. -/
def LiveIn {α : Type} (d : Deque α) (b : Nat) : Prop :=
  ∃ i, i < d.sz_ ∧ (d.ia_front + i) / kBlockSize_ = b

/-- The iterator that designates the cell at flattened address `x`. -/
def base_iterator.at_address (x : Nat) : base_iterator :=
  { it_ := ((x / 16 : Nat) : Int), cell_ := x % 16 }

/-! ## Working lemmas on buffers and the directory -/

theorem read_of_cellAt {α : Type} {data : List (Slot α)} {a : Nat} {v : α}
    (h : cellAt data a = some v) : read data (a / 16) (a % 16) = .ok v := by
  unfold cellAt at h
  unfold read
  split at h
  · rename_i cells hb
    rw [hb]
    split at h
    · rename_i w hc
      simp only [hc]
      simpa using h
    · simp at h
  · simp at h

theorem construct_ok {α : Type} (data : List (Slot α)) (b c : Nat) (v : α)
    (h : OwnedAt data b) (hc : c < 16) :
    ∃ data1, construct data b c v = .ok data1 ∧ data1.length = data.length ∧
      (∀ b1, OwnedAt data b1 → OwnedAt data1 b1) ∧
      cellAt data1 (16 * b + c) = some v ∧
      ∀ a, a ≠ 16 * b + c → cellAt data1 a = cellAt data a := by
  obtain ⟨cells, hb, hl⟩ := h
  have hbl : b < data.length := by
    by_contra hcon
    rw [List.getElem?_eq_none (by omega)] at hb
    simp at hb
  refine ⟨data.set b (.owned (cells.set c (some v))), ?_, by simp, ?_, ?_, ?_⟩
  · unfold construct
    rw [hb]
    simp [hl, hc]
  · intro b1 ⟨cells1, hb1, hl1⟩
    by_cases hbb : b = b1
    · subst hbb
      exact ⟨cells.set c (some v), by simp [List.getElem?_set, hbl], by simp [hl]⟩
    · exact ⟨cells1, by simp [List.getElem?_set, hbb, hb1], hl1⟩
  · have h1 : (16 * b + c) / 16 = b := by omega
    have h2 : (16 * b + c) % 16 = c := by omega
    unfold cellAt
    rw [h1, h2]
    simp [List.getElem?_set, hbl, hl, hc]
  · intro a ha
    unfold cellAt
    by_cases hab : b = a / 16
    · have hac : c ≠ a % 16 := by omega
      subst hab
      simp [List.getElem?_set, hbl, hb, hac]
    · simp [List.getElem?_set, hab]

theorem acquire_ok {α : Type} (data : List (Slot α)) (b : Nat) (hb : b < data.length) :
    ∃ data1, acquire data b = .ok data1 ∧ data1.length = data.length ∧
      OwnedAt data1 b ∧
      (∀ b1, b1 ≠ b → OwnedAt data b1 → OwnedAt data1 b1) ∧
      ∀ a, a / 16 ≠ b → cellAt data1 a = cellAt data a := by
  refine ⟨data.set b new_block, by simp [acquire, hb], by simp, ?_, ?_, ?_⟩
  · exact ⟨List.replicate 16 none, by simp [List.getElem?_set, hb, new_block, kBlockSize_], by simp⟩
  · intro b1 hne ⟨cells1, hb1, hl1⟩
    exact ⟨cells1, by simp [List.getElem?_set, Ne.symm hne, hb1], hl1⟩
  · intro a ha
    unfold cellAt
    simp [List.getElem?_set, Ne.symm ha]

theorem reallocate_double {α : Type} (d : Deque α) (hlen : d.data_.length = d.data_sz_)
    (heven : d.data_sz_ % 2 = 0) (hpos : 0 < d.data_sz_) (hsmall : 16 * d.data_sz_ < 2 ^ 63)
    (hfront : d.ia_front ≤ 16 * d.data_sz_) :
    ∃ d0, reallocate d (wrap (d.data_sz_ * 2)) = .ok d0 ∧
      d0.data_.length = 2 * d.data_sz_ ∧ d0.data_sz_ = 2 * d.data_sz_ ∧ d0.sz_ = d.sz_ ∧
      d0.ia_front = d.ia_front + 8 * d.data_sz_ ∧
      (∀ b, OwnedAt d.data_ b → OwnedAt d0.data_ (b + d.data_sz_ / 2)) ∧
      ∀ a, a < 16 * d.data_sz_ → cellAt d0.data_ (a + 8 * d.data_sz_) = cellAt d.data_ a := by
  have hw : wrap (d.data_sz_ * 2) = 2 * d.data_sz_ := by unfold wrap; omega
  have hg : usub (2 * d.data_sz_) d.data_sz_ / 2 = d.data_sz_ / 2 := by unfold usub; omega
  have hslot : ∀ b, b < d.data_sz_ →
      ((List.range (2 * d.data_sz_)).map (fun i =>
            if i < d.data_sz_ / 2 then Slot.null
            else if i < d.data_sz_ / 2 + d.data_sz_ then d.data_.getD (i - d.data_sz_ / 2) Slot.null
            else Slot.null))[b + d.data_sz_ / 2]? = d.data_[b]? := by
    intro b hb
    have h1 : b + d.data_sz_ / 2 < 2 * d.data_sz_ := by omega
    have h2 : ¬ (b + d.data_sz_ / 2 < d.data_sz_ / 2) := by omega
    have h3 : b + d.data_sz_ / 2 < d.data_sz_ / 2 + d.data_sz_ := by omega
    have h4 : b < d.data_.length := by omega
    simp [List.getElem?_map, List.getElem?_range, h1, h2, h3, List.getD_eq_getElem?_getD, h4]
  refine ⟨{ data_ := (List.range (2 * d.data_sz_)).map (fun i =>
            if i < d.data_sz_ / 2 then Slot.null
            else if i < d.data_sz_ / 2 + d.data_sz_ then d.data_.getD (i - d.data_sz_ / 2) Slot.null
            else Slot.null),
             data_sz_ := 2 * d.data_sz_,
             sz_ := d.sz_,
             ia_front := wrap (d.ia_front + wrap (d.data_sz_ / 2 * kBlockSize_)) },
    ?_, ?_, ?_, ?_, ?_, ?_, ?_⟩
  · rw [hw]
    unfold reallocate
    simp only [hg]
    rw [if_pos ⟨by omega, by omega⟩]
  · simp
  · rfl
  · rfl
  · show wrap (d.ia_front + wrap (d.data_sz_ / 2 * kBlockSize_)) = _
    unfold wrap kBlockSize_
    omega
  · intro b ⟨cells, hb, hl⟩
    have hbl : b < d.data_sz_ := by
      by_contra hcon
      rw [List.getElem?_eq_none (by omega)] at hb
      simp at hb
    exact ⟨cells, by rw [hslot b hbl, hb], hl⟩
  · intro a ha
    unfold cellAt
    have h1 : (a + 8 * d.data_sz_) / 16 = a / 16 + d.data_sz_ / 2 := by omega
    have h2 : (a + 8 * d.data_sz_) % 16 = a % 16 := by omega
    rw [h1, h2, hslot (a / 16) (by omega)]

theorem InvR.of_new {α : Type} : InvR (Deque.new : Deque α) [] 0 where
  len := rfl
  sz := rfl
  small := by simp [Deque.new]
  even := by simp [Deque.new]
  two := by simp [Deque.new]
  lo := by simp [Deque.new, kBlockSize_]
  hi := by simp [Deque.new, kBlockSize_]
  cap := by simp [Deque.new, kBlockSize_]
  grow := Or.inl rfl
  own := by
    intro b h1 h2
    have hb : b = 1 := by
      simp only [Deque.new, kBlockSize_] at h1 h2
      omega
    subst hb
    exact ⟨List.replicate 16 none, rfl, by simp⟩
  cells := by
    intro i h
    simp at h

theorem InvR.dir_bound {α : Type} {d : Deque α} {l : List α} {r : Nat} (h : InvR d l r)
    (hr : r ≤ 1) : 16 * d.data_sz_ < 2 ^ 63 := by
  have h1 := h.grow
  have h2 := h.small
  omega

theorem InvR.realloc_keeps {α : Type} {d : Deque α} {l : List α} (h : InvR d l 0)
    (hfull : d.ia_front + d.sz_ + 1 = 16 * d.data_sz_ ∨ (d.ia_front = 0 ∧ 0 < d.sz_)) :
    ∃ d0, reallocate d (wrap (d.data_sz_ * 2)) = .ok d0 ∧ InvR d0 l 0 ∧
      d0.ia_front = d.ia_front + 8 * d.data_sz_ ∧ d0.data_sz_ = 2 * d.data_sz_ ∧
      d0.sz_ = d.sz_ := by
  have hb := h.dir_bound (by omega)
  have h1 := h.lo
  have h2 := h.hi
  have h3 := h.cap
  have h4 := h.two
  have h5 := h.even
  have h6 := h.small
  obtain ⟨d0, e0, hlen, hds, hsz, hfr, hown, hcell⟩ :=
    reallocate_double d h.len h.even (by omega) hb (by omega)
  refine ⟨d0, e0, ?_, hfr, hds, hsz⟩
  constructor
  · rw [hlen, hds]
  · rw [hsz]; exact h.sz
  · rw [hsz]; exact h.small
  · omega
  · omega
  · omega
  · omega
  · omega
  · right; omega
  · intro b hb1 hb2
    rw [hfr] at hb1
    rw [hfr, hsz] at hb2
    have := hown (b - d.data_sz_ / 2) (h.own _ (by omega) (by omega))
    have e : b - d.data_sz_ / 2 + d.data_sz_ / 2 = b := by omega
    rw [e] at this
    exact this
  · intro i hi
    rw [hfr, ← h.cells i hi, ← hcell (d.ia_front + i) (by have := h.sz; omega)]
    congr 1
    omega

theorem InvR.ia_eq {α : Type} {d : Deque α} {l : List α} {r : Nat} (h : InvR d l r) (hr : r ≤ 1)
    (i : Nat) (hi : i ≤ d.sz_) : ia_from_id d i = d.ia_front + i := by
  have hb := h.dir_bound hr
  have h3 := h.cap
  unfold ia_from_id wrap
  omega

theorem InvR.acquire_back {α : Type} {d : Deque α} {l : List α} (h : InvR d l 0)
    (hc : (d.ia_front + d.sz_) % 16 = 15) (hroom : (d.ia_front + d.sz_) / 16 + 1 < d.data_sz_) :
    ∃ data1, acquire d.data_ ((d.ia_front + d.sz_) / 16 + 1) = .ok data1 ∧
      InvR { d with data_ := data1 } l 1 := by
  obtain ⟨data1, e1, hlen, hnew, hkeep, hcell⟩ :=
    acquire_ok d.data_ ((d.ia_front + d.sz_) / 16 + 1) (by rw [h.len]; exact hroom)
  refine ⟨data1, e1, ?_⟩
  have h1 := h.lo
  have h2 := h.hi
  have h3 := h.cap
  have h4 := h.two
  have h5 := h.even
  have h6 := h.small
  have h7 := h.grow
  constructor
  · show data1.length = d.data_sz_
    rw [hlen, h.len]
  · exact h.sz
  · exact h.small
  · exact h.even
  · exact h.two
  · exact h.lo
  · exact h.hi
  · show d.ia_front + d.sz_ + 1 < 16 * d.data_sz_
    omega
  · show d.data_sz_ = 2 ∨ 4 * d.data_sz_ ≤ d.sz_ + 1 + 1
    omega
  · intro b hb1 hb2
    show OwnedAt data1 b
    change d.ia_front / 16 ≤ b at hb1
    change b ≤ (d.ia_front + d.sz_ + 1) / 16 at hb2
    by_cases hbb : b = (d.ia_front + d.sz_) / 16 + 1
    · rw [hbb]; exact hnew
    · exact hkeep b hbb (h.own b hb1 (by omega))
  · intro i hi
    show cellAt data1 (d.ia_front + i) = some l[i]
    rw [hcell _ (by have := h.sz; omega)]
    exact h.cells i hi

theorem InvR.room_same_block {α : Type} {d : Deque α} {l : List α} (h : InvR d l 0)
    (hc : (d.ia_front + d.sz_) % 16 ≠ 15) : InvR d l 1 := by
  have h1 := h.lo
  have h2 := h.hi
  have h3 := h.cap
  have h4 := h.two
  have h7 := h.grow
  exact { h with
    cap := by omega
    grow := by omega
    own := fun b hb1 hb2 => h.own b hb1 (by omega) }

theorem InvR.construct_back {α : Type} {d : Deque α} {l : List α} (h : InvR d l 1) (v : α)
    (hsmall : d.sz_ + 1 < 2 ^ 60) :
    ∃ data1, construct d.data_ (ib_from_id d d.sz_) (ic_from_id d d.sz_) v = .ok data1 ∧
      InvR { d with data_ := data1, sz_ := wrap (d.sz_ + 1) } (l ++ [v]) 0 := by
  have hia := h.ia_eq (by omega) d.sz_ (by omega)
  have h1 := h.lo
  have h2 := h.hi
  have h3 := h.cap
  have h4 := h.two
  have h7 := h.grow
  have hw : wrap (d.sz_ + 1) = d.sz_ + 1 := by unfold wrap; omega
  obtain ⟨data1, e1, hlen, hkeep, hnew, hcell⟩ :=
    construct_ok d.data_ ((d.ia_front + d.sz_) / 16)
      ((d.ia_front + d.sz_) % 16) v (h.own _ (by omega) (by omega)) (by omega)
  refine ⟨data1, ?_, ?_⟩
  · unfold ib_from_id ic_from_id kBlockSize_
    rw [hia]
    exact e1
  · rw [hw]
    constructor
    · show data1.length = d.data_sz_
      rw [hlen, h.len]
    · show d.sz_ + 1 = (l ++ [v]).length
      rw [h.sz]; simp
    · exact hsmall
    · exact h.even
    · exact h.two
    · exact h.lo
    · show 8 * d.data_sz_ ≤ d.ia_front + (d.sz_ + 1)
      omega
    · show d.ia_front + (d.sz_ + 1) + 0 < 16 * d.data_sz_
      omega
    · show d.data_sz_ = 2 ∨ 4 * d.data_sz_ ≤ d.sz_ + 1 + 1 + 0
      omega
    · intro b hb1 hb2
      change d.ia_front / 16 ≤ b at hb1
      change b ≤ (d.ia_front + (d.sz_ + 1) + 0) / 16 at hb2
      exact hkeep b (h.own b hb1 (by omega))
    · intro i hi
      show cellAt data1 (d.ia_front + i) = some (l ++ [v])[i]
      have hdm : 16 * ((d.ia_front + d.sz_) / 16) + (d.ia_front + d.sz_) % 16
          = d.ia_front + d.sz_ := by omega
      rw [hdm] at hnew hcell
      by_cases hil : i < l.length
      · rw [hcell _ (by have := h.sz; omega), List.getElem_append_left hil]
        exact h.cells i hil
      · have hieq : i = d.sz_ := by
          have := h.sz
          simp at hi
          omega
        subst hieq
        rw [hnew]
        simp [h.sz]

theorem InvR.push_back_keeps {α : Type} {d : Deque α} {l : List α} (h : InvR d l 0) (v : α)
    (hsmall : d.sz_ + 1 < 2 ^ 60) :
    ∃ d1, push_back d v = .ok d1 ∧ InvR d1 (l ++ [v]) 0 := by
  have hia := h.ia_eq (by omega) d.sz_ (by omega)
  have hb := h.dir_bound (by omega)
  have h1 := h.lo
  have h2 := h.hi
  have h3 := h.cap
  have h4 := h.two
  have h7 := h.grow
  have h5 := h.even
  have hic : ic_from_id d d.sz_ = (d.ia_front + d.sz_) % 16 := by
    unfold ic_from_id kBlockSize_; rw [hia]
  have hib : ib_from_id d d.sz_ = (d.ia_front + d.sz_) / 16 := by
    unfold ib_from_id kBlockSize_; rw [hia]
  have hus : usub d.data_sz_ 1 = d.data_sz_ - 1 := by unfold usub; omega
  by_cases hc : (d.ia_front + d.sz_) % 16 = 15
  · -- the push fills the last cell of a block: the next block is acquired first
    have hstep : ∃ d0, (if ib_from_id d d.sz_ = usub d.data_sz_ 1 then
          reallocate d (if d.data_sz_ = 0 then 1 else wrap (d.data_sz_ * 2))
        else pure d) = Except.ok d0 ∧ InvR d0 l 0 ∧ (d0.ia_front + d0.sz_) % 16 = 15 ∧
          (d0.ia_front + d0.sz_) / 16 + 1 < d0.data_sz_ := by
      by_cases hfull : (d.ia_front + d.sz_) / 16 = d.data_sz_ - 1
      · obtain ⟨d0, e0, hinv, hfr, hds, hsz⟩ := h.realloc_keeps (Or.inl (by omega))
        refine ⟨d0, ?_, hinv, by rw [hfr, hsz]; omega, by rw [hfr, hsz, hds]; omega⟩
        rw [if_pos (by rw [hib, hus]; exact hfull), if_neg (by omega)]
        exact e0
      · refine ⟨d, ?_, h, hc, by omega⟩
        rw [if_neg (by rw [hib, hus]; exact hfull)]
        rfl
    obtain ⟨d0, e0, hinv0, hc0, hroom0⟩ := hstep
    obtain ⟨data1, e1, hinv1⟩ := hinv0.acquire_back hc0 hroom0
    have hia0 := hinv0.ia_eq (by omega) d0.sz_ (by omega)
    have hb0 := hinv0.dir_bound (by omega)
    have hidx : wrap (ib_from_id d0 d0.sz_ + 1) = (d0.ia_front + d0.sz_) / 16 + 1 := by
      unfold ib_from_id kBlockSize_ wrap
      rw [hia0]
      have := hinv0.cap
      omega
    obtain ⟨data2, e2, hinv2⟩ := hinv1.construct_back v (by
      show d0.sz_ + 1 < 2 ^ 60
      rw [hinv0.sz, ← h.sz]; exact hsmall)
    refine ⟨_, ?_, hinv2⟩
    unfold DequeModel.push_back
    rw [if_pos (by rw [hic, hc]; rfl), e0]
    simp only [bind, Except.bind, pure, Except.pure, hidx, e1]
    rw [e2]
  · have hinv1 := h.room_same_block hc
    obtain ⟨data2, e2, hinv2⟩ := hinv1.construct_back v hsmall
    refine ⟨_, ?_, hinv2⟩
    unfold DequeModel.push_back
    rw [if_neg (by rw [hic]; unfold kBlockSize_; omega)]
    simp only [bind, Except.bind, pure, Except.pure]
    rw [e2]

theorem InvR.acquire_front {α : Type} {d : Deque α} {l : List α} (h : InvR d l 0)
    (hc : d.ia_front % 16 = 0) (hpos : 16 ≤ d.ia_front) :
    ∃ data1, acquire d.data_ (d.ia_front / 16 - 1) = .ok data1 ∧
      InvR { d with data_ := data1 } l 0 ∧ OwnedAt data1 (d.ia_front / 16 - 1) := by
  have h1 := h.lo
  have h2 := h.hi
  have h3 := h.cap
  have h4 := h.two
  obtain ⟨data1, e1, hlen, hnew, hkeep, hcell⟩ :=
    acquire_ok d.data_ (d.ia_front / 16 - 1) (by rw [h.len]; omega)
  refine ⟨data1, e1, ?_, hnew⟩
  constructor
  · show data1.length = d.data_sz_
    rw [hlen, h.len]
  · exact h.sz
  · exact h.small
  · exact h.even
  · exact h.two
  · exact h.lo
  · exact h.hi
  · exact h.cap
  · exact h.grow
  · intro b hb1 hb2
    change d.ia_front / 16 ≤ b at hb1
    exact hkeep b (by omega) (h.own b hb1 hb2)
  · intro i hi
    show cellAt data1 (d.ia_front + i) = some l[i]
    rw [hcell _ (by omega)]
    exact h.cells i hi

theorem InvR.construct_front {α : Type} {d : Deque α} {l : List α} (h : InvR d l 0) (v : α)
    (hsmall : d.sz_ + 1 < 2 ^ 60) (hpos : 1 ≤ d.ia_front)
    (hown : OwnedAt d.data_ ((d.ia_front - 1) / 16)) :
    ∃ data1, construct d.data_ ((d.ia_front - 1) / 16) ((d.ia_front - 1) % 16) v = .ok data1 ∧
      InvR { data_ := data1, data_sz_ := d.data_sz_, sz_ := wrap (d.sz_ + 1),
             ia_front := usub d.ia_front 1 } (v :: l) 0 := by
  have hb := h.dir_bound (by omega)
  have h1 := h.lo
  have h2 := h.hi
  have h3 := h.cap
  have h4 := h.two
  have h7 := h.grow
  have hw : wrap (d.sz_ + 1) = d.sz_ + 1 := by unfold wrap; omega
  have hu : usub d.ia_front 1 = d.ia_front - 1 := by unfold usub; omega
  obtain ⟨data1, e1, hlen, hkeep, hnew, hcell⟩ :=
    construct_ok d.data_ ((d.ia_front - 1) / 16)
      ((d.ia_front - 1) % 16) v hown (by omega)
  refine ⟨data1, e1, ?_⟩
  rw [hw, hu]
  have hdm : 16 * ((d.ia_front - 1) / 16) + (d.ia_front - 1) % 16 = d.ia_front - 1 := by omega
  rw [hdm] at hnew hcell
  constructor
  · show data1.length = d.data_sz_
    rw [hlen, h.len]
  · show d.sz_ + 1 = (v :: l).length
    rw [h.sz]; simp
  · exact hsmall
  · exact h.even
  · exact h.two
  · show d.ia_front - 1 ≤ 8 * d.data_sz_
    omega
  · show 8 * d.data_sz_ ≤ d.ia_front - 1 + (d.sz_ + 1)
    omega
  · show d.ia_front - 1 + (d.sz_ + 1) + 0 < 16 * d.data_sz_
    omega
  · show d.data_sz_ = 2 ∨ 4 * d.data_sz_ ≤ d.sz_ + 1 + 1 + 0
    omega
  · intro b hb1 hb2
    change (d.ia_front - 1) / 16 ≤ b at hb1
    change b ≤ (d.ia_front - 1 + (d.sz_ + 1) + 0) / 16 at hb2
    apply hkeep
    by_cases hbb : b = (d.ia_front - 1) / 16
    · rw [hbb]; exact hown
    · exact h.own b (by omega) (by omega)
  · intro i hi
    show cellAt data1 (d.ia_front - 1 + i) = some (v :: l)[i]
    cases i with
    | zero => simpa using hnew
    | succ j =>
      have hj : j < l.length := by simpa using hi
      rw [hcell _ (by omega)]
      have e : d.ia_front - 1 + (j + 1) = d.ia_front + j := by omega
      rw [e]
      simpa using h.cells j hj

theorem InvR.push_front_keeps {α : Type} {d : Deque α} {l : List α} (h : InvR d l 0) (v : α)
    (hsmall : d.sz_ + 1 < 2 ^ 60) :
    ∃ d1, push_front d v = .ok d1 ∧ InvR d1 (v :: l) 0 := by
  have hia := h.ia_eq (by omega) 0 (by omega)
  have hb := h.dir_bound (by omega)
  have h1 := h.lo
  have h2 := h.hi
  have h3 := h.cap
  have h4 := h.two
  have h5 := h.even
  have h7 := h.grow
  have hic : ic_from_id d 0 = d.ia_front % 16 := by
    unfold ic_from_id kBlockSize_; rw [hia]; rfl
  have hib : ib_from_id d 0 = d.ia_front / 16 := by
    unfold ib_from_id kBlockSize_; rw [hia]; rfl
  by_cases hc : d.ia_front % 16 = 0
  · -- the front cell starts a block: the previous block is acquired first
    have hstep : ∃ d0, (if ib_from_id d 0 = 0 ∧ d.sz_ > 0 then
          reallocate d (wrap (d.data_sz_ * 2))
        else pure d) = Except.ok d0 ∧ InvR d0 l 0 ∧ d0.ia_front % 16 = 0 ∧
          16 ≤ d0.ia_front := by
      by_cases hfull : d.ia_front / 16 = 0 ∧ d.sz_ > 0
      · obtain ⟨d0, e0, hinv, hfr, hds, hsz⟩ := h.realloc_keeps (Or.inr ⟨by omega, hfull.2⟩)
        refine ⟨d0, ?_, hinv, by rw [hfr]; omega, by rw [hfr]; omega⟩
        rw [if_pos (by rw [hib]; exact hfull)]
        exact e0
      · refine ⟨d, ?_, h, hc, by omega⟩
        rw [if_neg (by rw [hib]; exact hfull)]
        rfl
    obtain ⟨d0, e0, hinv0, hc0, hpos0⟩ := hstep
    obtain ⟨data1, e1, hinv1, hown1⟩ := hinv0.acquire_front hc0 hpos0
    have hia0 := hinv0.ia_eq (by omega) 0 (by omega)
    have hb0 := hinv0.dir_bound (by omega)
    have hcap0 := hinv0.cap
    have htwo0 := hinv0.two
    have hslot : wrap (usub (ib_from_id d0 0) 1 + d0.data_sz_) % d0.data_sz_
        = d0.ia_front / 16 - 1 := by
      unfold ib_from_id kBlockSize_
      rw [hia0]
      have e : usub ((d0.ia_front + 0) / 16) 1 = d0.ia_front / 16 - 1 := by unfold usub; omega
      rw [e]
      have e2 : wrap (d0.ia_front / 16 - 1 + d0.data_sz_) = d0.ia_front / 16 - 1 + d0.data_sz_ := by
        unfold wrap; omega
      rw [e2, Nat.add_mod_right]
      exact Nat.mod_eq_of_lt (by omega)
    have hb1 : (d0.ia_front - 1) / 16 = d0.ia_front / 16 - 1 := by omega
    have hc1 : (d0.ia_front - 1) % 16 = 15 := by omega
    obtain ⟨data2, e2, hinv2⟩ := hinv1.construct_front v (by
      show d0.sz_ + 1 < 2 ^ 60
      rw [hinv0.sz, ← h.sz]; exact hsmall) (by show 1 ≤ d0.ia_front; omega) (by
      show OwnedAt data1 ((d0.ia_front - 1) / 16)
      rw [hb1]; exact hown1)
    change construct data1 ((d0.ia_front - 1) / 16) ((d0.ia_front - 1) % 16) v = _ at e2
    rw [hb1, hc1] at e2
    refine ⟨_, ?_, hinv2⟩
    unfold DequeModel.push_front
    rw [if_pos (by rw [hic, hc]), e0]
    simp only [bind, Except.bind, pure, Except.pure]
    rw [if_neg (by omega)]
    simp only [hslot, e1, kBlockSize_, e2]
  · obtain ⟨data2, e2, hinv2⟩ := h.construct_front v hsmall (by omega)
      (h.own _ (by omega) (by omega))
    refine ⟨_, ?_, hinv2⟩
    have hb1 : (d.ia_front - 1) / 16 = d.ia_front / 16 := by omega
    have hu : usub (d.ia_front % 16) 1 = (d.ia_front - 1) % 16 := by unfold usub; omega
    unfold DequeModel.push_front
    rw [if_neg (by rw [hic]; exact hc)]
    simp only [bind, Except.bind, pure, Except.pure, hib, hic, hu, ← hb1, e2]

theorem InvR.run_pushes {α : Type} (ops : List (Op α)) :
    ∀ (d : Deque α) (l : List α), InvR d l 0 → (∀ op ∈ ops, op.isPush = true) →
      l.length + ops.length < 2 ^ 60 →
      ∃ d1, run ops d = .ok d1 ∧ InvR d1 (runSpec ops l) 0 := by
  induction ops with
  | nil =>
    intro d l h _ _
    exact ⟨d, rfl, h⟩
  | cons op ops ih =>
    intro d l h hp hlen
    have hlen1 : d.sz_ + 1 < 2 ^ 60 := by
      rw [h.sz]
      simp only [List.length_cons] at hlen
      omega
    have hp1 : ∀ o ∈ ops, o.isPush = true := fun o ho => hp o (List.mem_cons_of_mem _ ho)
    have hop := hp op (List.mem_cons_self _ _)
    cases op with
    | push_back v =>
      obtain ⟨d1, e1, hinv1⟩ := h.push_back_keeps v hlen1
      obtain ⟨d2, e2, hinv2⟩ := ih d1 (l ++ [v]) hinv1 hp1 (by
        simp only [List.length_cons, List.length_append, List.length_nil] at hlen ⊢
        omega)
      refine ⟨d2, ?_, hinv2⟩
      simp only [run, Op.apply, e1]
      exact e2
    | push_front v =>
      obtain ⟨d1, e1, hinv1⟩ := h.push_front_keeps v hlen1
      obtain ⟨d2, e2, hinv2⟩ := ih d1 (v :: l) hinv1 hp1 (by
        simp only [List.length_cons] at hlen ⊢
        omega)
      refine ⟨d2, ?_, hinv2⟩
      simp only [run, Op.apply, e1]
      exact e2
    | pop_back => simp [Op.isPush] at hop
    | pop_front => simp [Op.isPush] at hop

theorem InvR.index_eq {α : Type} {d : Deque α} {l : List α} (h : InvR d l 0) (i : Nat)
    (hi : i < l.length) : index d i = .ok l[i] := by
  have hia := h.ia_eq (by omega) i (by rw [h.sz]; omega)
  unfold DequeModel.index ib_from_id ic_from_id kBlockSize_
  rw [hia]
  exact read_of_cellAt (h.cells i hi)

theorem runSpec_push_back {α : Type} (xs l : List α) :
    runSpec (xs.map Op.push_back) l = l ++ xs := by
  induction xs generalizing l with
  | nil => simp [runSpec]
  | cons x xs ih =>
    have := ih (l ++ [x])
    simp only [runSpec, List.map_cons, List.foldl_cons, Op.spec] at this ⊢
    rw [this]
    simp

theorem runSpec_push_front {α : Type} (xs l : List α) :
    runSpec (xs.map Op.push_front) l = xs.reverse ++ l := by
  induction xs generalizing l with
  | nil => simp [runSpec]
  | cons x xs ih =>
    have := ih (x :: l)
    simp only [runSpec, List.map_cons, List.foldl_cons, Op.spec] at this ⊢
    rw [this]
    simp

theorem cellAt_some {α : Type} {data : List (Slot α)} {a : Nat} {v : α}
    (h : cellAt data a = some v) :
    ∃ cells, data[a / 16]? = some (Slot.owned cells) ∧ cells[a % 16]? = some (some v) := by
  unfold cellAt at h
  split at h
  · rename_i cells hb
    refine ⟨cells, hb, ?_⟩
    split at h
    · rename_i w hc
      rw [hc]
      simpa using h
    · simp at h
  · simp at h

theorem destroy_ok {α : Type} {data : List (Slot α)} {a : Nat} {v : α}
    (h : cellAt data a = some v) :
    ∃ data1, destroy data (a / 16) (a % 16) = .ok data1 ∧
      (∃ cells, data1[a / 16]? = some (Slot.owned cells)) ∧
      ∀ a1, a1 ≠ a → cellAt data1 a1 = cellAt data a1 := by
  obtain ⟨cells, hb, hc⟩ := cellAt_some h
  have hbl : a / 16 < data.length := by
    by_contra hcon
    rw [List.getElem?_eq_none (by omega)] at hb
    simp at hb
  refine ⟨data.set (a / 16) (.owned (cells.set (a % 16) none)), ?_, ?_, ?_⟩
  · unfold destroy
    rw [hb]
    simp only [hc]
  · exact ⟨cells.set (a % 16) none, by simp [List.getElem?_set, hbl]⟩
  · intro a1 ha
    unfold cellAt
    by_cases hab : a / 16 = a1 / 16
    · have hac : a % 16 ≠ a1 % 16 := by omega
      rw [← hab]
      simp [List.getElem?_set, hbl, hb, hac]
    · simp [List.getElem?_set, hab]

theorem release_ok {α : Type} {data : List (Slot α)} {b : Nat}
    (h : ∃ cells, data[b]? = some (Slot.owned cells)) :
    ∃ data1, release data b = .ok data1 ∧
      ∀ a1, a1 / 16 ≠ b → cellAt data1 a1 = cellAt data a1 := by
  obtain ⟨cells, hb⟩ := h
  refine ⟨data.set b .dangling, ?_, ?_⟩
  · unfold release
    rw [hb]
  · intro a1 ha
    unfold cellAt
    simp [List.getElem?_set, Ne.symm ha]

theorem InvR.to_live {α : Type} {d : Deque α} {l : List α} (h : InvR d l 0) :
    Live d l.length where
  sz := h.sz
  nowrap := by
    have := h.dir_bound (by omega)
    have := h.cap
    have := h.sz
    omega
  cells := fun i hi => ⟨l[i], h.cells i hi⟩

theorem Live.pop_front_keeps {α : Type} {d : Deque α} {n : Nat} (h : Live d (n + 1)) :
    ∃ d1, pop_front d = .ok d1 ∧ Live d1 n := by
  have hnw := h.nowrap
  have hsz := h.sz
  obtain ⟨v, hv⟩ := h.cells 0 (by omega)
  rw [Nat.add_zero] at hv
  have hia : ia_from_id d 0 = d.ia_front := by unfold ia_from_id wrap; omega
  have hic : ic_from_id d 0 = d.ia_front % 16 := by unfold ic_from_id kBlockSize_; rw [hia]
  have hib : ib_from_id d 0 = d.ia_front / 16 := by unfold ib_from_id kBlockSize_; rw [hia]
  have hus : usub d.sz_ 1 = n := by unfold usub; omega
  have hw : wrap (d.ia_front + 1) = d.ia_front + 1 := by unfold wrap; omega
  obtain ⟨data1, e1, hown1, hcell1⟩ := destroy_ok hv
  have hstep : ∃ data2, (if ic_from_id d 0 = kBlockSize_ - 1 then release data1 (ib_from_id d 0)
        else pure data1) = Except.ok data2 ∧
      ∀ i, i < n → cellAt data2 (d.ia_front + 1 + i) = cellAt d.data_ (d.ia_front + 1 + i) := by
    by_cases hc : d.ia_front % 16 = 15
    · obtain ⟨data2, e2, hcell2⟩ := release_ok hown1
      refine ⟨data2, ?_, ?_⟩
      · rw [if_pos (by rw [hic, hc]; rfl), hib]
        exact e2
      · intro i _
        rw [hcell2 _ (by omega), hcell1 _ (by omega)]
    · refine ⟨data1, ?_, ?_⟩
      · rw [if_neg (by rw [hic]; unfold kBlockSize_; omega)]
        rfl
      · intro i _
        rw [hcell1 _ (by omega)]
  obtain ⟨data2, e2, hcell2⟩ := hstep
  refine ⟨{ d with data_ := data2, sz_ := usub d.sz_ 1,
                   ia_front := if usub d.sz_ 1 = 0 then 0 else wrap (d.ia_front + 1) }, ?_, ?_⟩
  · unfold DequeModel.pop_front
    rw [hib, hic] at *
    simp only [bind, Except.bind, pure, Except.pure, e1]
    simp only [pure, Except.pure] at e2
    rw [e2]
  · rw [hus, hw]
    constructor
    · rfl
    · show (if n = 0 then 0 else d.ia_front + 1) + n < 2 ^ 64
      split <;> omega
    · intro i hi
      show ∃ w, cellAt data2 ((if n = 0 then 0 else d.ia_front + 1) + i) = some w
      rw [if_neg (by omega), hcell2 i hi]
      have e : d.ia_front + 1 + i = d.ia_front + (i + 1) := by omega
      rw [e]
      exact h.cells (i + 1) (by omega)

theorem Live.run_pop_front {α : Type} (n : Nat) :
    ∀ (d : Deque α), Live d n →
      ∃ d1, run (List.replicate n Op.pop_front) d = .ok d1 ∧ size d1 = 0 := by
  induction n with
  | zero =>
    intro d h
    exact ⟨d, rfl, h.sz⟩
  | succ n ih =>
    intro d h
    obtain ⟨d1, e1, h1⟩ := h.pop_front_keeps
    obtain ⟨d2, e2, h2⟩ := ih d1 h1
    refine ⟨d2, ?_, h2⟩
    simp only [List.replicate_succ, run, Op.apply, e1]
    exact e2

theorem incr_iterate (n : Nat) : ∀ (a : base_iterator), a.cell_ < 16 →
    Nat.iterate base_iterator.incr n a
      = { it_ := a.it_ + ((a.cell_ + n) / 16 : Nat), cell_ := (a.cell_ + n) % 16 } := by
  induction n with
  | zero =>
    intro a ha
    cases a with
    | mk it cell =>
      simp only [Function.iterate_zero, id_eq, Nat.add_zero, base_iterator.mk.injEq]
      constructor
      · have : cell / 16 = 0 := by simp only at ha; omega
        rw [this]; simp
      · simp only at ha; omega
  | succ n ih =>
    intro a ha
    rw [Function.iterate_succ_apply]
    by_cases hc : a.cell_ = 15
    · have e : a.incr = { it_ := a.it_ + 1, cell_ := 0 } := by
        unfold base_iterator.incr kBlockSize_
        rw [if_pos hc]
      rw [e, ih _ (by simp)]
      simp only [base_iterator.mk.injEq]
      constructor
      · have : ((a.cell_ + (n + 1)) / 16 : Nat) = (0 + n) / 16 + 1 := by omega
        rw [this]; push_cast; ring
      · omega
    · have e : a.incr = { it_ := a.it_, cell_ := a.cell_ + 1 } := by
        unfold base_iterator.incr kBlockSize_
        rw [if_neg hc]
      rw [e, ih _ (by show a.cell_ + 1 < 16; omega)]
      simp only [base_iterator.mk.injEq]
      constructor
      · have : ((a.cell_ + (n + 1)) / 16 : Nat) = (a.cell_ + 1 + n) / 16 := by
          congr 1; omega
        rw [this]
      · congr 1; omega

theorem minus_eq (a b : base_iterator)
    (h0 : 0 ≤ (b.it_ - a.it_) * 16 + b.cell_ - a.cell_)
    (h1 : (b.it_ - a.it_) * 16 + b.cell_ - a.cell_ < 2 ^ 63) :
    b.minus a = to_int ((b.it_ - a.it_) * 16 + b.cell_ - a.cell_) := by
  unfold base_iterator.minus to_size_t kBlockSize_
  congr 1
  push_cast
  omega

theorem plus_eq (a : base_iterator) (x : Nat) (ha : a.cell_ < 16) (hx : x < 2 ^ 31) :
    a.plus (x : Int) = { it_ := a.it_ + ((a.cell_ + x) / 16 : Nat), cell_ := (a.cell_ + x) % 16 } := by
  unfold base_iterator.plus base_iterator.add_assign to_ptrdiff to_size_t kBlockSize_
  have e : ((x : Int) % 2 ^ 64 + (a.cell_ : Int)) % 2 ^ 64 = ((a.cell_ + x : Nat) : Int) := by
    push_cast; omega
  rw [e]
  simp only [base_iterator.mk.injEq]
  constructor
  · have e2 : (((a.cell_ + x : Nat) : Int) / ((16 : Nat) : Int)) % 2 ^ 64
        = (((a.cell_ + x) / 16 : Nat) : Int) := by
      push_cast; omega
    rw [e2, if_pos (by omega)]
  · push_cast
    omega

theorem to_int_small (x : Nat) (hx : x < 2 ^ 31) : to_int (x : Int) = x := by
  unfold to_int
  split <;> omega

theorem read_not_out_of_range {α : Type} (data : List (Slot α)) (b c : Nat) :
    read data b c ≠ .error .out_of_range := by
  unfold read
  split
  · simp
  · simp
  · simp
  · split <;> simp

theorem le_dist (a b : base_iterator) (ha : a.cell_ < 16) (hle : a.le b = true) :
    0 ≤ (b.it_ - a.it_) * 16 + b.cell_ - a.cell_ := by
  unfold base_iterator.le base_iterator.gt base_iterator.lt at hle
  by_cases h1 : b.it_ < a.it_
  · simp [h1] at hle
  · by_cases h2 : b.it_ = a.it_
    · by_cases h3 : b.cell_ < a.cell_
      · simp [h2, h3] at hle
      · omega
    · omega

theorem runSpec_length_pushes {α : Type} (ops : List (Op α)) :
    ∀ (l : List α), (∀ op ∈ ops, op.isPush = true) →
      (runSpec ops l).length = l.length + ops.length := by
  induction ops with
  | nil => intro l _; rfl
  | cons op ops ih =>
    intro l hp
    have hp1 : ∀ o ∈ ops, o.isPush = true := fun o ho => hp o (List.mem_cons_of_mem _ ho)
    have hop := hp op (List.mem_cons_self _ _)
    have e : runSpec (op :: ops) l = runSpec ops (Op.spec l op) := rfl
    rw [e, ih _ hp1]
    cases op with
    | push_back v => simp [Op.spec]; omega
    | push_front v => simp [Op.spec]; omega
    | pop_back => simp [Op.isPush] at hop
    | pop_front => simp [Op.isPush] at hop

theorem StoreInv_new {α : Type} : StoreInv (Deque.new : Deque α) := by
  constructor
  · intro i hi
    simp [Deque.new] at hi
  · intro b c cells hc hb
    have hsz : (Deque.new : Deque α).sz_ = 0 := rfl
    rw [hsz]
    constructor
    · rintro ⟨v, hv⟩
      exfalso
      match b, hb with
      | 0, hb => simp [Deque.new] at hb
      | 1, hb =>
        simp only [Deque.new, new_block, List.getElem?_cons_succ, List.getElem?_cons_zero,
          Option.some.injEq, Slot.owned.injEq] at hb
        subst hb
        rw [List.getElem?_replicate] at hv
        split at hv <;> simp at hv
      | b + 2, hb => simp [Deque.new] at hb
    · intro h
      omega

/-! ## The claims -/

/-- Claim C1, evaluated on the code: on the script `push_back(1); pop_back(); push_back(2)` the
abstract list is `[2]`, so `operator[](0)` should return `2`; the code instead writes through
the null directory entry `data_[0]` in the second `push_back` (the pop has reset `ia_front`
to `0`, and slot `0` of the directory was never given a buffer). -/
theorem refinement_breaks_after_emptying :
    run [Op.push_back 1, Op.pop_back, Op.push_back 2] (Deque.new : Deque Nat)
        = .error .null_deref ∧
      runSpec [Op.push_back 1, Op.pop_back, Op.push_back 2] ([] : List Nat) = [2] :=
  ⟨rfl, rfl⟩

/-- Claim C2, evaluated on the code: on the script `push_back(1); push_back(2); pop_back();
pop_back(); push_back(3)` the number of pushes minus pops is `1` (the length of the abstract
list), but the last `push_back` writes through the null directory entry `data_[0]`, so no
`size()` is ever reported. -/
theorem size_lost_after_emptying :
    run [Op.push_back 1, Op.push_back 2, Op.pop_back, Op.pop_back, Op.push_back 3]
        (Deque.new : Deque Nat) = .error .null_deref ∧
      (runSpec [Op.push_back 1, Op.push_back 2, Op.pop_back, Op.pop_back, Op.push_back 3]
        ([] : List Nat)).length = 1 :=
  ⟨rfl, rfl⟩

/-- Claim C3, evaluated on the code: a newly constructed deque satisfies the Store invariant,
but the state reached by `push_front(1); pop_front(); push_front(2)` has `size() == 1`,
`block_count == 2` and `ia_front == 2^64 - 1` (the pop reset `ia_front` to `0` and the push
then decremented it), so the block index of logical index `0` lies outside the directory and
the Store invariant fails. -/
theorem store_invariant_broken :
    StoreInv (Deque.new : Deque Nat) ∧
    ∃ d, run [Op.push_front 1, Op.pop_front, Op.push_front 2] (Deque.new : Deque Nat) = .ok d ∧
      size d = 1 ∧ d.ia_front = 18446744073709551615 ∧ d.data_sz_ = 2 ∧ ¬ StoreInv d := by
  refine ⟨StoreInv_new, _, rfl, rfl, rfl, rfl, ?_⟩
  intro h
  have h1 := (h.1 0 (by decide)).1
  revert h1
  decide

/-- Claim C4: for every deque and index, `at(i)` fails with `out_of_range` exactly when
`i >= size()`; when `i < size()` it returns what `operator[](i)` returns; and in both cases
the container state after the call is the state before it. -/
theorem at_checks_bounds {α : Type} (d : Deque α) (i : Nat) :
    ((at_ d i).1 = .error .out_of_range ↔ i ≥ size d) ∧
      (i < size d → (at_ d i).1 = index d i) ∧
      (at_ d i).2 = d := by
  unfold at_ size
  by_cases h : i ≥ d.sz_
  · rw [if_pos h]
    exact ⟨⟨fun _ => h, fun _ => rfl⟩, fun h1 => absurd h (by omega), rfl⟩
  · rw [if_neg h]
    refine ⟨⟨fun h1 => absurd h1 ?_, fun h1 => absurd h1 h⟩, fun _ => rfl, rfl⟩
    exact read_not_out_of_range _ _ _

/-- Claim C4 at a concrete input: `at(0)` on a newly constructed deque reports `out_of_range`
and leaves the deque as constructed. -/
theorem at_checks_bounds_witness :
    (at_ (Deque.new : Deque Nat) 0).1 = .error .out_of_range ∧
      (at_ (Deque.new : Deque Nat) 0).2 = Deque.new :=
  ⟨(at_checks_bounds (Deque.new : Deque Nat) 0).1.2 (by decide),
    (at_checks_bounds (Deque.new : Deque Nat) 0).2.2⟩

/-- Claim C5: pushing the elements of `xs` to the back of a newly constructed deque gives
`size() == |xs|` and `operator[](i) == xs[i]` for every `i < |xs|`, and `|xs|` calls of
`pop_front()` afterwards give `size() == 0`.  The length bound keeps every `size_t` value of
the run below `2^64`. -/
theorem push_back_all_pop_front_all {α : Type} (xs : List α) (hlen : xs.length < 2 ^ 60) :
    ∃ d, run (xs.map Op.push_back) Deque.new = .ok d ∧ size d = xs.length ∧
      (∀ i (h : i < xs.length), index d i = .ok xs[i]) ∧
      ∃ d1, run (List.replicate xs.length Op.pop_front) d = .ok d1 ∧ size d1 = 0 := by
  obtain ⟨d, e, hinv⟩ := InvR.run_pushes (xs.map Op.push_back) Deque.new [] InvR.of_new
    (by
      intro op hop
      obtain ⟨x, _, rfl⟩ := List.mem_map.mp hop
      rfl)
    (by simpa using hlen)
  rw [runSpec_push_back, List.nil_append] at hinv
  refine ⟨d, e, hinv.sz, fun i h => hinv.index_eq i h, ?_⟩
  exact Live.run_pop_front xs.length d hinv.to_live

/-- Claim C5 on the scenario of the specification: `push_back(1..40)`, then forty
`pop_front()` calls. -/
theorem push_back_all_pop_front_all_witness :
    ∃ d, run (((List.range 40).map Nat.succ).map Op.push_back) Deque.new = .ok d ∧ size d = 40 ∧
      index d 0 = .ok 1 ∧ index d 39 = .ok 40 ∧
      ∃ d1, run (List.replicate 40 Op.pop_front) d = .ok d1 ∧ size d1 = 0 := by
  obtain ⟨d, h1, h2, h3, h4⟩ :=
    push_back_all_pop_front_all ((List.range 40).map Nat.succ) (by decide)
  exact ⟨d, h1, h2, h3 0 (by decide), h3 39 (by decide), h4⟩

/-- Claim C6: pushing the elements of `xs` to the front of a newly constructed deque gives
`size() == |xs|` and `operator[](i) == xs[|xs| - 1 - i]` for every `i < |xs|`.  The length
bound keeps every `size_t` value of the run below `2^64`. -/
theorem push_front_all_reverses {α : Type} (xs : List α) (hlen : xs.length < 2 ^ 60) :
    ∃ d, run (xs.map Op.push_front) Deque.new = .ok d ∧ size d = xs.length ∧
      ∀ i (h : i < xs.length), index d i = .ok (xs.get ⟨xs.length - 1 - i, by omega⟩) := by
  obtain ⟨d, e, hinv⟩ := InvR.run_pushes (xs.map Op.push_front) Deque.new [] InvR.of_new
    (by
      intro op hop
      obtain ⟨x, _, rfl⟩ := List.mem_map.mp hop
      rfl)
    (by simpa using hlen)
  rw [runSpec_push_front, List.append_nil] at hinv
  refine ⟨d, e, by rw [size, hinv.sz, List.length_reverse], fun i h => ?_⟩
  rw [hinv.index_eq i (by rw [List.length_reverse]; exact h)]
  simp [List.getElem_reverse]

/-- Claim C6 on the scenario of the specification: `push_front(1)`, `push_front(2)`,
`push_front(3)` gives the logical order `[3, 2, 1]`. -/
theorem push_front_all_reverses_witness :
    ∃ d, run [Op.push_front 1, Op.push_front 2, Op.push_front 3] Deque.new = .ok d ∧
      size d = 3 ∧ index d 0 = .ok 3 ∧ index d 1 = .ok 2 ∧ index d 2 = .ok 1 := by
  obtain ⟨d, h1, h2, h3⟩ := push_front_all_reverses [1, 2, 3] (by decide)
  exact ⟨d, h1, h2, h3 0 (by decide), h3 1 (by decide), h3 2 (by decide)⟩

/-- Claim C7, evaluated on the code: for the emptied deque reached by `push_back(1);
pop_back()` the copy constructor reads `other.data_[1][0]`, a cell of the buffer that
`pop_back` has freed (with `sz_ == 0` and `ia_front == 0` the guard
`i * 16 + j <= ia_from_id(sz_ - 1) && i * 16 + j >= ia_front` holds for every cell).  A
deque that was never emptied, here the one built by `push_front(1); push_back(2);
push_back(3)`, is copied with its size and elements. -/
theorem copy_of_emptied_deque_faults :
    (∃ d, run [Op.push_back 1, Op.pop_back] (Deque.new : Deque Nat) = .ok d ∧ size d = 0 ∧
      copy d = .error .use_after_free) ∧
    ∃ d c, run [Op.push_front 1, Op.push_back 2, Op.push_back 3] (Deque.new : Deque Nat) = .ok d ∧
      copy d = .ok c ∧ size c = 3 ∧ index c 0 = .ok 1 ∧ index c 1 = .ok 2 ∧ index c 2 = .ok 3 :=
  ⟨⟨_, rfl, rfl, rfl⟩, _, _, rfl, rfl, rfl, rfl, rfl, rfl⟩

/-- Claim C8, evaluated on the code: after one round of 64 `push_back` calls and 64 `pop_back`
calls the deque has `size() == 0`, but a further `push_back(7)` writes through the null
directory entry `data_[0]`, whereas on a newly constructed deque the same call succeeds and
`operator[](0)` returns `7`. -/
theorem grow_shrink_round_not_fresh :
    ∃ d, run ((List.range 64).map Op.push_back ++ List.replicate 64 Op.pop_back)
        (Deque.new : Deque Nat) = .ok d ∧ size d = 0 ∧
      push_back d 7 = .error .null_deref ∧
      ∃ d1, push_back (Deque.new : Deque Nat) 7 = .ok d1 ∧ size d1 = 1 ∧ index d1 0 = .ok 7 :=
  ⟨_, rfl, rfl, rfl, _, rfl, rfl, rfl⟩

/-- Claim C9, amended: for iterators `a <= b` with cells in `[0, 16)` that are fewer than
`2^31` elements apart, `b - a` is the number of `++` steps that lead from `a` to `b` (exactly
that many steps reach `b`, and no other number does), and `a + (b - a) == b`. -/
theorem iterator_difference_counts_steps (a b : base_iterator)
    (ha : a.cell_ < 16) (hb : b.cell_ < 16) (hle : a.le b = true)
    (hd : (b.it_ - a.it_) * 16 + b.cell_ - a.cell_ < 2 ^ 31) :
    ∃ n : Nat, b.minus a = n ∧ Nat.iterate base_iterator.incr n a = b ∧
      (∀ m : Nat, Nat.iterate base_iterator.incr m a = b → m = n) ∧
      a.plus (b.minus a) = b := by
  have h0 : 0 ≤ (b.it_ - a.it_) * 16 + b.cell_ - a.cell_ := le_dist a b ha hle
  obtain ⟨n, hn⟩ := Int.eq_ofNat_of_zero_le h0
  have hn31 : n < 2 ^ 31 := by omega
  have hm : b.minus a = n := by
    rw [minus_eq a b h0 (by omega), hn, to_int_small n hn31]
  have hit : ∀ m : Nat, Nat.iterate base_iterator.incr m a = b ↔ m = n := by
    intro m
    rw [incr_iterate m a ha]
    cases b with
    | mk bit bcell =>
      simp only [base_iterator.mk.injEq]
      simp only at hn hb
      constructor
      · rintro ⟨h1, h2⟩
        omega
      · intro h
        subst h
        constructor <;> omega
  refine ⟨n, hm, (hit n).2 rfl, fun m h => (hit m).1 h, ?_⟩
  rw [hm, plus_eq a n ha hn31, ← incr_iterate n a ha]
  exact (hit n).2 rfl

/-- Claim C9, amended, at the iterators (slot 1, cell 14) and (slot 3, cell 2). -/
theorem iterator_difference_counts_steps_witness :
    ∃ n : Nat, (base_iterator.mk 3 2).minus (base_iterator.mk 1 14) = n ∧
      Nat.iterate base_iterator.incr n (base_iterator.mk 1 14) = base_iterator.mk 3 2 ∧
      (∀ m : Nat, Nat.iterate base_iterator.incr m (base_iterator.mk 1 14) = base_iterator.mk 3 2
        → m = n) ∧
      (base_iterator.mk 1 14).plus ((base_iterator.mk 3 2).minus (base_iterator.mk 1 14))
        = base_iterator.mk 3 2 :=
  iterator_difference_counts_steps (base_iterator.mk 1 14) (base_iterator.mk 3 2)
    (by decide) (by decide) (by decide) (by decide)

/-- Claim C9 fails as stated: the iterators (slot 0, cell 0) and (slot 2^27, cell 0) have
cells in `[0, 16)` and are ordered, `2^31` steps of `++` lead from the first to the second,
but their difference, an `int`, is `-2^31`, and adding it to the first does not give the
second. -/
theorem iterator_difference_overflows_int :
    (base_iterator.mk 0 0).cell_ < 16 ∧ (base_iterator.mk 134217728 0).cell_ < 16 ∧
      (base_iterator.mk 0 0).le (base_iterator.mk 134217728 0) = true ∧
      Nat.iterate base_iterator.incr 2147483648 (base_iterator.mk 0 0)
        = base_iterator.mk 134217728 0 ∧
      (base_iterator.mk 134217728 0).minus (base_iterator.mk 0 0) = -2147483648 ∧
      (base_iterator.mk 0 0).plus
          ((base_iterator.mk 134217728 0).minus (base_iterator.mk 0 0))
        ≠ base_iterator.mk 134217728 0 := by
  refine ⟨by decide, by decide, by decide, ?_, by decide, by decide⟩
  rw [incr_iterate 2147483648 (base_iterator.mk 0 0) (by decide)]
  decide

theorem fill_loop_eq_run {α : Type} (n : Nat) (el : α) :
    ∀ d : Deque α, fill_loop n d el = run (List.replicate n (Op.push_back el)) d := by
  induction n with
  | zero => intro d; rfl
  | succ n ih =>
    intro d
    simp only [fill_loop, List.replicate_succ, run, Op.apply]
    cases h : push_back d el with
    | error e => rfl
    | ok d1 => exact ih d1

theorem add_assign_split (s : Int) (c : Nat) (n : Int) (hc : c < 16)
    (hlo : -2 ^ 31 ≤ n) (hhi : n < 2 ^ 31) :
    (base_iterator.mk s c).add_assign n
      = { it_ := s + (if (c : Int) + n < 0 then 2 ^ 60 else 0) + ((c : Int) + n) / 16
          cell_ := (((c : Int) + n) % 16).toNat } := by
  unfold base_iterator.add_assign to_ptrdiff to_size_t kBlockSize_
  simp only [base_iterator.mk.injEq]
  constructor
  · split <;> split <;> push_cast at * <;> omega
  · push_cast
    omega

theorem push_back_after_throw_point {α : Type} (d : Deque α) (el : α) :
    push_back d el = (push_back_throw d).bind (fun d1 =>
      (construct d1.data_ (ib_from_id d1 d1.sz_) (ic_from_id d1 d1.sz_) el).bind (fun data =>
        .ok { d1 with data_ := data, sz_ := wrap (d1.sz_ + 1) })) :=
  rfl

theorem push_back_throw_inside_block {α : Type} (d : Deque α)
    (h : ic_from_id d d.sz_ ≠ kBlockSize_ - 1) : push_back_throw d = .ok d := by
  unfold push_back_throw
  rw [if_neg h]
  rfl

theorem pop_back_result {α : Type} (d d1 : Deque α) (h : pop_back d = .ok d1) :
    d1.sz_ = usub d.sz_ 1 ∧ d1.ia_front = if usub d.sz_ 1 = 0 then 0 else d.ia_front := by
  unfold pop_back at h
  simp only [bind, Except.bind, pure, Except.pure] at h
  cases hd : destroy d.data_ (ib_from_id d (usub d.sz_ 1)) (ic_from_id d (usub d.sz_ 1)) with
  | error e => rw [hd] at h; exact Except.noConfusion h
  | ok v =>
    rw [hd] at h
    simp only at h
    cases hr : (if ic_from_id d (usub d.sz_ 1) = 0 then release v (ib_from_id d (usub d.sz_ 1))
        else Except.ok v) with
    | error e => rw [hr] at h; exact Except.noConfusion h
    | ok w =>
      rw [hr] at h
      simp only [Except.ok.injEq] at h
      constructor <;> rw [← h]

theorem pop_front_result {α : Type} (d d1 : Deque α) (h : pop_front d = .ok d1) :
    d1.sz_ = usub d.sz_ 1 ∧
      d1.ia_front = if usub d.sz_ 1 = 0 then 0 else wrap (d.ia_front + 1) := by
  unfold pop_front at h
  simp only [bind, Except.bind, pure, Except.pure] at h
  cases hd : destroy d.data_ (ib_from_id d 0) (ic_from_id d 0) with
  | error e => rw [hd] at h; exact Except.noConfusion h
  | ok v =>
    rw [hd] at h
    simp only at h
    cases hr : (if ic_from_id d 0 = kBlockSize_ - 1 then release v (ib_from_id d 0)
        else Except.ok v) with
    | error e => rw [hr] at h; exact Except.noConfusion h
    | ok w =>
      rw [hr] at h
      simp only [Except.ok.injEq] at h
      constructor <;> rw [← h]

theorem release_slot {α : Type} {data : List (Slot α)} {b : Nat}
    (h : ∃ cells, data[b]? = some (Slot.owned cells)) :
    ∃ data1, release data b = .ok data1 ∧ data1[b]? = some Slot.dangling := by
  obtain ⟨cells, hb⟩ := h
  have hbl : b < data.length := by
    by_contra hcon
    rw [List.getElem?_eq_none (by omega)] at hb
    simp at hb
  refine ⟨data.set b .dangling, ?_, by simp [List.getElem?_set, hbl]⟩
  unfold release
  rw [hb]

theorem StoreInv.cell_live {α : Type} {d : Deque α} (h : StoreInv d) (i : Nat) (hi : i < d.sz_) :
    ∃ v, cellAt d.data_ (d.ia_front + i) = some v := by
  obtain ⟨_, cells, hb⟩ := h.1 i hi
  unfold kBlockSize_ at hb
  have hc := (h.2 ((d.ia_front + i) / 16) ((d.ia_front + i) % 16) cells
    (by unfold kBlockSize_; omega) hb).2 (by unfold kBlockSize_; omega)
  obtain ⟨v, hv⟩ := hc
  refine ⟨v, ?_⟩
  unfold cellAt
  rw [hb]
  simp only [hv]

theorem destroy_frame {α : Type} {data data1 : List (Slot α)} {ib ic : Nat}
    (h : destroy data ib ic = .ok data1) (b : Nat) (hb : b ≠ ib) : data1[b]? = data[b]? := by
  unfold destroy at h
  split at h
  · exact Except.noConfusion h
  · exact Except.noConfusion h
  · exact Except.noConfusion h
  · split at h
    · exact Except.noConfusion h
    · exact Except.noConfusion h
    · rw [← Except.ok.inj h, List.getElem?_set_ne (Ne.symm hb)]

theorem release_frame {α : Type} {data data1 : List (Slot α)} {ib : Nat}
    (h : release data ib = .ok data1) (b : Nat) (hb : b ≠ ib) : data1[b]? = data[b]? := by
  unfold release at h
  split at h
  · exact Except.noConfusion h
  · rw [← Except.ok.inj h]
  · exact Except.noConfusion h
  · rw [← Except.ok.inj h, List.getElem?_set_ne (Ne.symm hb)]

theorem pop_back_live {α : Type} (d : Deque α) (hne : 0 < d.sz_)
    (hw : d.ia_front + d.sz_ < 2 ^ 64) (v : α)
    (hv : cellAt d.data_ (d.ia_front + d.sz_ - 1) = some v) :
    ∃ data2, pop_back d
        = .ok ⟨data2, d.data_sz_, d.sz_ - 1, if d.sz_ - 1 = 0 then 0 else d.ia_front⟩ ∧
      ((d.ia_front + d.sz_ - 1) % 16 = 0 →
        data2[(d.ia_front + d.sz_ - 1) / 16]? = some Slot.dangling) ∧
      ((d.ia_front + d.sz_ - 1) % 16 ≠ 0 →
        ∃ cells, data2[(d.ia_front + d.sz_ - 1) / 16]? = some (Slot.owned cells)) ∧
      (∀ b, b ≠ (d.ia_front + d.sz_ - 1) / 16 → data2[b]? = d.data_[b]?) := by
  have hus : usub d.sz_ 1 = d.sz_ - 1 := by unfold usub; omega
  have hia : ia_from_id d (d.sz_ - 1) = d.ia_front + d.sz_ - 1 := by
    unfold ia_from_id wrap; omega
  have hib : ib_from_id d (d.sz_ - 1) = (d.ia_front + d.sz_ - 1) / 16 := by
    unfold ib_from_id kBlockSize_; rw [hia]
  have hic : ic_from_id d (d.sz_ - 1) = (d.ia_front + d.sz_ - 1) % 16 := by
    unfold ic_from_id kBlockSize_; rw [hia]
  obtain ⟨data1, e1, hown1, _⟩ := destroy_ok hv
  by_cases hc : (d.ia_front + d.sz_ - 1) % 16 = 0
  · obtain ⟨data2, e2, hdang⟩ := release_slot hown1
    refine ⟨data2, ?_, fun _ => hdang, fun h => absurd hc h,
      fun b hb => (release_frame e2 b hb).trans (destroy_frame e1 b hb)⟩
    unfold pop_back
    rw [hus, hib, hic]
    simp only [bind, Except.bind, pure, Except.pure, e1]
    rw [if_pos hc, e2]
  · refine ⟨data1, ?_, fun h => absurd h hc, fun _ => hown1,
      fun b hb => destroy_frame e1 b hb⟩
    unfold pop_back
    rw [hus, hib, hic]
    simp only [bind, Except.bind, pure, Except.pure, e1]
    rw [if_neg hc]

theorem pop_front_live {α : Type} (d : Deque α) (hne : 0 < d.sz_)
    (hw : d.ia_front + d.sz_ < 2 ^ 64) (v : α)
    (hv : cellAt d.data_ d.ia_front = some v) :
    ∃ data2, pop_front d
        = .ok ⟨data2, d.data_sz_, d.sz_ - 1, if d.sz_ - 1 = 0 then 0 else d.ia_front + 1⟩ ∧
      (d.ia_front % 16 = 15 → data2[d.ia_front / 16]? = some Slot.dangling) ∧
      (d.ia_front % 16 ≠ 15 → ∃ cells, data2[d.ia_front / 16]? = some (Slot.owned cells)) ∧
      (∀ b, b ≠ d.ia_front / 16 → data2[b]? = d.data_[b]?) := by
  have hus : usub d.sz_ 1 = d.sz_ - 1 := by unfold usub; omega
  have hia : ia_from_id d 0 = d.ia_front := by unfold ia_from_id wrap; omega
  have hib : ib_from_id d 0 = d.ia_front / 16 := by
    unfold ib_from_id kBlockSize_; rw [hia]
  have hic : ic_from_id d 0 = d.ia_front % 16 := by
    unfold ic_from_id kBlockSize_; rw [hia]
  have hwf : wrap (d.ia_front + 1) = d.ia_front + 1 := by unfold wrap; omega
  obtain ⟨data1, e1, hown1, _⟩ := destroy_ok hv
  by_cases hc : d.ia_front % 16 = 15
  · obtain ⟨data2, e2, hdang⟩ := release_slot hown1
    refine ⟨data2, ?_, fun _ => hdang, fun h => absurd hc h,
      fun b hb => (release_frame e2 b hb).trans (destroy_frame e1 b hb)⟩
    unfold pop_front
    rw [hus, hib, hic, hwf]
    simp only [bind, Except.bind, pure, Except.pure, e1]
    rw [if_pos (by rw [hc]; rfl), e2]
  · refine ⟨data1, ?_, fun h => absurd h hc, fun _ => hown1,
      fun b hb => destroy_frame e1 b hb⟩
    unfold pop_front
    rw [hus, hib, hic, hwf]
    simp only [bind, Except.bind, pure, Except.pure, e1]
    rw [if_neg (by unfold kBlockSize_; omega)]

theorem StoreInv_single_front :
    StoreInv (⟨[Slot.owned (List.replicate 15 none ++ [some 1]),
      Slot.owned (List.replicate 16 none)], 2, 1, 15⟩ : Deque Nat) := by
  constructor
  · intro i hi
    have hi0 : i = 0 := by
      simp only at hi
      omega
    subst hi0
    exact ⟨by decide, _, rfl⟩
  · intro b c cells hc hb
    simp only [kBlockSize_] at hc ⊢
    match b, hb with
    | 0, hb =>
      simp only [List.getElem?_cons_zero, Option.some.injEq, Slot.owned.injEq] at hb
      subst hb
      interval_cases c <;> simp
    | 1, hb =>
      simp only [List.getElem?_cons_succ, List.getElem?_cons_zero, Option.some.injEq,
        Slot.owned.injEq] at hb
      subst hb
      constructor
      · rintro ⟨v, hv⟩
        rw [List.getElem?_replicate] at hv
        split at hv <;> simp at hv
      · intro h
        omega
    | b + 2, hb => simp at hb

theorem ofDeque_at_address {α : Type} (d : Deque α) (i : Nat) (h : d.ia_front + i < 2 ^ 64) :
    base_iterator.ofDeque d i = base_iterator.at_address (d.ia_front + i) := by
  have hia : ia_from_id d i = d.ia_front + i := by unfold ia_from_id wrap; omega
  unfold base_iterator.ofDeque base_iterator.at_address ib_from_id ic_from_id kBlockSize_
  rw [hia]

theorem at_address_lt (x y : Nat) :
    (base_iterator.at_address x).lt (base_iterator.at_address y) = decide (x < y) := by
  unfold base_iterator.lt base_iterator.at_address
  by_cases h : x < y
  · rw [decide_eq_true h]
    simp only [Bool.or_eq_true, Bool.and_eq_true, decide_eq_true_eq]
    omega
  · rw [decide_eq_false h]
    simp only [Bool.or_eq_false_iff, Bool.and_eq_false_iff, decide_eq_false_iff_not]
    omega

theorem at_address_incr (x : Nat) :
    (base_iterator.at_address x).incr = base_iterator.at_address (x + 1) := by
  unfold base_iterator.incr base_iterator.at_address kBlockSize_
  by_cases h : x % 16 = 15
  · rw [if_pos h]
    simp only [base_iterator.mk.injEq]
    constructor
    · have : ((x + 1) / 16 : Nat) = x / 16 + 1 := by omega
      rw [this]; push_cast; ring
    · omega
  · rw [if_neg h]
    simp only [base_iterator.mk.injEq]
    constructor
    · have : ((x + 1) / 16 : Nat) = x / 16 := by omega
      rw [this]
    · omega

theorem at_address_plus (x k : Nat) (hk : k < 2 ^ 31) :
    (base_iterator.at_address x).plus (k : Int) = base_iterator.at_address (x + k) := by
  unfold base_iterator.at_address
  rw [plus_eq _ k (by show x % 16 < 16; omega) hk]
  simp only [base_iterator.mk.injEq]
  constructor <;> omega

theorem at_address_minus_one (y : Nat) (hy : 1 ≤ y) :
    (base_iterator.at_address y).minus_int 1 = base_iterator.at_address (y - 1) := by
  unfold base_iterator.minus_int base_iterator.sub_assign base_iterator.sub_offset
    base_iterator.at_address to_int to_size_t kBlockSize_
  simp only [base_iterator.mk.injEq]
  have e : ((((1 : Int) % 2 ^ 64 - ((y % 16 : Nat) : Int)) % 2 ^ 64 + ((16 : Nat) : Int)) % 2 ^ 64 - 1)
      % 2 ^ 64 = ((16 - y % 16 : Nat) : Int) := by
    push_cast
    omega
  rw [e]
  constructor
  · split <;> push_cast <;> omega
  · split <;> push_cast <;> omega

theorem at_address_deref {α : Type} (d : Deque α) (x : Nat) :
    (base_iterator.at_address x).deref d = read d.data_ (x / 16) (x % 16) := by
  unfold base_iterator.deref base_iterator.at_address
  simp only
  rw [if_pos (by omega), Int.toNat_ofNat]

theorem index_of_cellAt {α : Type} (d : Deque α) (i : Nat) (v : α)
    (hw : d.ia_front + i < 2 ^ 64) (h : cellAt d.data_ (d.ia_front + i) = some v) :
    index d i = .ok v := by
  have hia : ia_from_id d i = d.ia_front + i := by unfold ia_from_id wrap; omega
  unfold DequeModel.index ib_from_id ic_from_id kBlockSize_
  rw [hia]
  exact read_of_cellAt h

theorem assign_ok {α : Type} (trivial : Bool) {data : List (Slot α)} {a : Nat} {w : α} (v : α)
    (h : cellAt data a = some w) :
    ∃ data1, assign trivial data (a / 16) (a % 16) v = .ok data1 ∧
      cellAt data1 a = some v ∧ ∀ a1, a1 ≠ a → cellAt data1 a1 = cellAt data a1 := by
  obtain ⟨cells, hb, hc⟩ := cellAt_some h
  have hbl : a / 16 < data.length := by
    by_contra hcon
    rw [List.getElem?_eq_none (by omega)] at hb
    simp at hb
  have hcl : a % 16 < cells.length := by
    by_contra hcon
    rw [List.getElem?_eq_none (by omega)] at hc
    simp at hc
  refine ⟨data.set (a / 16) (.owned (cells.set (a % 16) (some v))), ?_, ?_, ?_⟩
  · unfold assign
    rw [hb]
    simp only [hc]
  · unfold cellAt
    simp [List.getElem?_set, hbl, hcl]
  · intro a1 ha
    unfold cellAt
    by_cases hab : a / 16 = a1 / 16
    · have hac : a % 16 ≠ a1 % 16 := by omega
      rw [← hab]
      simp [List.getElem?_set, hbl, hb, hac]
    · simp [List.getElem?_set, hab]

theorem destroy_t_ok {α : Type} (trivial : Bool) {data : List (Slot α)} {a : Nat} {w : α}
    (h : cellAt data a = some w) :
    ∃ data1, destroy_t trivial data (a / 16) (a % 16) = .ok data1 ∧
      ∀ a1, a1 ≠ a → cellAt data1 a1 = cellAt data a1 := by
  obtain ⟨cells, hb, hc⟩ := cellAt_some h
  have hbl : a / 16 < data.length := by
    by_contra hcon
    rw [List.getElem?_eq_none (by omega)] at hb
    simp at hb
  refine ⟨data.set (a / 16) (.owned (cells.set (a % 16) none)), ?_, ?_⟩
  · unfold destroy_t
    rw [hb]
    simp only [hc]
  · intro a1 ha
    unfold cellAt
    by_cases hab : a / 16 = a1 / 16
    · have hac : a % 16 ≠ a1 % 16 := by omega
      rw [← hab]
      simp [List.getElem?_set, hbl, hb, hac]
    · simp [List.getElem?_set, hab]

theorem at_address_assign {α : Type} (trivial : Bool) (d : Deque α) (x : Nat) (v w : α)
    (h : cellAt d.data_ x = some w) :
    ∃ data1, (base_iterator.at_address x).assign_at trivial d v
        = .ok ⟨data1, d.data_sz_, d.sz_, d.ia_front⟩ ∧
      cellAt data1 x = some v ∧ ∀ a1, a1 ≠ x → cellAt data1 a1 = cellAt d.data_ a1 := by
  obtain ⟨data1, e1, h1, h2⟩ := assign_ok trivial v h
  refine ⟨data1, ?_, h1, h2⟩
  unfold base_iterator.assign_at base_iterator.at_address
  simp only [Int.toNat_ofNat, e1]
  rw [if_pos (by omega)]

theorem erase_loop_stop {α : Type} (trivial : Bool) (fuel : Nat) (d : Deque α)
    (it : base_iterator) (h : it.lt ((end_ d).minus_int 1) = false) :
    erase_loop trivial fuel d it = .ok (d, it) := by
  cases fuel <;> simp [erase_loop, h]

theorem erase_loop_step {α : Type} (trivial : Bool) (fuel : Nat) (d d1 : Deque α)
    (it : base_iterator) (v : α) (h : it.lt ((end_ d).minus_int 1) = true)
    (hr : (it.plus 1).deref d = .ok v) (ha : it.assign_at trivial d v = .ok d1) :
    erase_loop trivial (fuel + 1) d it = erase_loop trivial fuel d1 it.incr := by
  rw [erase_loop]
  simp only [h, if_true, hr, ha]

theorem end_minus_one_at_address {α : Type} (d : Deque α) (hne : 0 < d.sz_)
    (hw : d.ia_front + d.sz_ < 2 ^ 64) :
    (end_ d).minus_int 1 = base_iterator.at_address (d.ia_front + d.sz_ - 1) := by
  unfold end_
  rw [ofDeque_at_address d d.sz_ hw, at_address_minus_one _ (by omega)]

theorem erase_loop_shifts {α : Type} (trivial : Bool) (F n : Nat) (hw : F + n < 2 ^ 64) :
    ∀ (m j fuel : Nat) (d : Deque α) (f : Nat → Option α),
      d.ia_front = F → d.sz_ = n → j + m + 1 = n → m ≤ fuel →
      (∀ i, i < n → ∃ v, f i = some v) →
      (∀ i, i < n → cellAt d.data_ (F + i) = f i) →
      ∃ data1, erase_loop trivial fuel d (base_iterator.at_address (F + j))
          = .ok (⟨data1, d.data_sz_, n, F⟩, base_iterator.at_address (F + n - 1)) ∧
        ∀ i, i < n → cellAt data1 (F + i) = if j ≤ i ∧ i + 1 < n then f (i + 1) else f i := by
  intro m
  induction m with
  | zero =>
    intro j fuel d f hF hsz hj _ _ hcells
    have hend := end_minus_one_at_address d (by omega) (by rw [hF, hsz]; exact hw)
    rw [hF, hsz] at hend
    refine ⟨d.data_, ?_, ?_⟩
    · rw [erase_loop_stop trivial fuel d _ (by
        rw [hend, at_address_lt]
        exact decide_eq_false (by omega))]
      have e : F + j = F + n - 1 := by omega
      rw [e]
      cases d
      simp only at hF hsz
      subst hF hsz
      rfl
    · intro i hi
      rw [if_neg (by omega)]
      exact hcells i hi
  | succ m ih =>
    intro j fuel d f hF hsz hj hfuel hsome hcells
    have hend := end_minus_one_at_address d (by omega) (by rw [hF, hsz]; exact hw)
    rw [hF, hsz] at hend
    obtain ⟨fuel1, rfl⟩ : ∃ fuel1, fuel = fuel1 + 1 := ⟨fuel - 1, by omega⟩
    obtain ⟨v, hv⟩ := hsome (j + 1) (by omega)
    obtain ⟨w, hwj⟩ := hsome j (by omega)
    have hcv : cellAt d.data_ (F + j + 1) = some v := by
      rw [← hv]; exact hcells (j + 1) (by omega)
    have hcw : cellAt d.data_ (F + j) = some w := by
      rw [← hwj]; exact hcells j (by omega)
    have hread : ((base_iterator.at_address (F + j)).plus 1).deref d = .ok v := by
      have := at_address_plus (F + j) 1 (by norm_num)
      simp only [Nat.cast_one] at this
      rw [this, at_address_deref]
      exact read_of_cellAt hcv
    obtain ⟨data1, ea, hnew, hkeep⟩ := at_address_assign trivial d (F + j) v w hcw
    have hlt : (base_iterator.at_address (F + j)).lt ((end_ d).minus_int 1) = true := by
      rw [hend, at_address_lt]
      exact decide_eq_true (by omega)
    obtain ⟨data2, e2, hcells2⟩ := ih (j + 1) fuel1 ⟨data1, d.data_sz_, d.sz_, d.ia_front⟩
      (fun i => if i = j then f (j + 1) else f i) hF hsz (by omega) (by omega)
      (by
        intro i hi
        show ∃ v, (if i = j then f (j + 1) else f i) = some v
        by_cases hij : i = j
        · rw [if_pos hij]; exact hsome (j + 1) (by omega)
        · rw [if_neg hij]; exact hsome i hi)
      (by
        intro i hi
        show cellAt data1 (F + i) = if i = j then f (j + 1) else f i
        by_cases hij : i = j
        · rw [if_pos hij, hij, hnew, hv]
        · rw [if_neg hij, hkeep _ (by omega)]
          exact hcells i hi)
    refine ⟨data2, ?_, ?_⟩
    · rw [erase_loop_step trivial fuel1 d _ _ v hlt hread ea, at_address_incr]
      exact e2
    · intro i hi
      have hc2 : cellAt data2 (F + i) = if j + 1 ≤ i ∧ i + 1 < n
          then (if i + 1 = j then f (j + 1) else f (i + 1))
          else (if i = j then f (j + 1) else f i) := hcells2 i hi
      rw [hc2]
      by_cases h1 : j + 1 ≤ i ∧ i + 1 < n
      · have h2 : j ≤ i ∧ i + 1 < n := ⟨by omega, h1.2⟩
        have h3 : ¬ (i + 1 = j) := by omega
        rw [if_pos h1, if_neg h3, if_pos h2]
      · rw [if_neg h1]
        by_cases hij : i = j
        · have h2 : j ≤ i ∧ i + 1 < n := ⟨by omega, by omega⟩
          rw [if_pos hij, if_pos h2, hij]
        · have h2 : ¬ (j ≤ i ∧ i + 1 < n) := by omega
          rw [if_neg hij, if_neg h2]

theorem erase_cells {α : Type} (trivial : Bool) (d : Deque α) (f : Nat → Option α)
    (k fuel : Nat) (hw : d.ia_front + d.sz_ < 2 ^ 64) (hk : k < d.sz_) (hfuel : d.sz_ ≤ fuel)
    (hsome : ∀ i, i < d.sz_ → ∃ v, f i = some v)
    (hcells : ∀ i, i < d.sz_ → cellAt d.data_ (d.ia_front + i) = f i) :
    ∃ data1, erase trivial fuel d (base_iterator.at_address (d.ia_front + k))
        = .ok ⟨data1, d.data_sz_, d.sz_ - 1, d.ia_front⟩ ∧
      ∀ i, i + 1 < d.sz_ →
        cellAt data1 (d.ia_front + i) = if k ≤ i then f (i + 1) else f i := by
  obtain ⟨data1, e1, hc1⟩ := erase_loop_shifts trivial d.ia_front d.sz_ hw
    (d.sz_ - 1 - k) k fuel d f rfl rfl (by omega) (by omega) hsome hcells
  obtain ⟨v, hv⟩ := hsome (d.sz_ - 1) (by omega)
  have hlast : cellAt data1 (d.ia_front + d.sz_ - 1) = some v := by
    have := hc1 (d.sz_ - 1) (by omega)
    rw [if_neg (by omega), hv] at this
    rw [← this]
    congr 1
    omega
  obtain ⟨data2, e2, hkeep⟩ := destroy_t_ok trivial hlast
  have hus : usub d.sz_ 1 = d.sz_ - 1 := by unfold usub; omega
  refine ⟨data2, ?_, ?_⟩
  · unfold erase
    rw [e1]
    simp only [base_iterator.at_address, Int.toNat_ofNat, e2, hus]
    rw [if_pos (by omega)]
  · intro i hi
    rw [hkeep _ (by omega), hc1 i (by omega)]
    by_cases hki : k ≤ i
    · rw [if_pos ⟨hki, hi⟩, if_pos hki]
    · rw [if_neg (fun h => hki h.1), if_neg hki]

theorem InvR.no_wrap {α : Type} {d : Deque α} {l : List α} (h : InvR d l 0) :
    d.ia_front + d.sz_ < 2 ^ 63 := by
  have h1 := h.dir_bound (by omega)
  have h2 := h.cap
  omega

theorem InvR.begin_plus {α : Type} {d : Deque α} {l : List α} (h : InvR d l 0) (k : Nat)
    (hk : k < 2 ^ 31) :
    (begin_ d).plus (to_int (k : Int)) = base_iterator.at_address (d.ia_front + k) := by
  have hw := h.no_wrap
  unfold begin_
  rw [to_int_small k hk, ofDeque_at_address d 0 (by omega), Nat.add_zero,
    at_address_plus _ k hk]

theorem StoreInv_two_blocks :
    StoreInv (⟨[Slot.owned (List.replicate 15 none ++ [some 3]),
      Slot.owned (some 4 :: List.replicate 15 none)], 2, 2, 15⟩ : Deque Nat) := by
  constructor
  · intro i hi
    simp only at hi
    interval_cases i
    · exact ⟨by decide, _, rfl⟩
    · exact ⟨by decide, _, rfl⟩
  · intro b c cells hc hb
    simp only [kBlockSize_] at hc ⊢
    match b, hb with
    | 0, hb =>
      simp only [List.getElem?_cons_zero, Option.some.injEq, Slot.owned.injEq] at hb
      subst hb
      interval_cases c <;> simp
    | 1, hb =>
      simp only [List.getElem?_cons_succ, List.getElem?_cons_zero, Option.some.injEq,
        Slot.owned.injEq] at hb
      subst hb
      interval_cases c <;> simp
    | b + 2, hb =>
      simp at hb

/-! ## The claims, continued -/

/-- Claim C11: the fill constructor `Deque(n, v)` produces a deque with `size() == n` whose
every element `operator[](i)`, `i < n`, is `v`.  The bound on `n` keeps every `size_t` value
of the run below `2^64`. -/
theorem fill_constructs {α : Type} (n : Nat) (v : α) (hn : n < 2 ^ 60) :
    ∃ d, Deque.fill n v = .ok d ∧ size d = n ∧ ∀ i, i < n → index d i = .ok v := by
  obtain ⟨d, e, hinv⟩ := InvR.run_pushes ((List.replicate n v).map Op.push_back) Deque.new []
    InvR.of_new
    (by
      intro op hop
      obtain ⟨x, _, rfl⟩ := List.mem_map.mp hop
      rfl)
    (by simpa using hn)
  rw [runSpec_push_back, List.nil_append] at hinv
  rw [List.map_replicate] at e
  refine ⟨d, ?_, ?_, ?_⟩
  · unfold Deque.fill
    rw [fill_loop_eq_run]
    exact e
  · rw [size, hinv.sz, List.length_replicate]
  · intro i hi
    rw [hinv.index_eq i (by rw [List.length_replicate]; exact hi)]
    simp

/-- Claim C11 on the scenario of the specification: `Deque(5, 'x')` (the character code of
`'x'` is 120). -/
theorem fill_constructs_witness :
    ∃ d, Deque.fill 5 120 = .ok d ∧ size d = 5 ∧ index d 0 = .ok 120 ∧ index d 4 = .ok 120 := by
  obtain ⟨d, h1, h2, h3⟩ := fill_constructs 5 120 (by decide)
  exact ⟨d, h1, h2, h3 0 (by decide), h3 4 (by decide)⟩

/-- Claim C12, amended: for a deque built from a newly constructed one by pushes (the fill
constructor is such a run of `push_back`), with contents `xs`, and every `k < size()` with
`k < 2^31`, the call `erase(begin() + k)` returns (its loop runs at most `size()` times) and
leaves `size() == |xs| - 1`, `operator[](i) == xs[i]` for `i < k` and
`operator[](i) == xs[i + 1]` for `k <= i < |xs| - 1`.  This holds whether or not `T` is
trivially copyable. -/
theorem erase_shifts_left {α : Type} (trivial : Bool) (ops : List (Op α))
    (hp : ∀ op ∈ ops, op.isPush = true) (hlen : ops.length < 2 ^ 60)
    (k : Nat) (hk : k < ops.length) (hk31 : k < 2 ^ 31)
    (fuel : Nat) (hfuel : ops.length ≤ fuel) :
    ∃ d d1, run ops Deque.new = .ok d ∧ size d = ops.length ∧
      erase trivial fuel d ((begin_ d).plus (to_int (k : Int))) = .ok d1 ∧
      size d1 = ops.length - 1 ∧
      (∀ i v, i < k → (runSpec ops [])[i]? = some v → index d1 i = .ok v) ∧
      (∀ i v, k ≤ i → (runSpec ops [])[i + 1]? = some v → index d1 i = .ok v) := by
  obtain ⟨d, e, hinv⟩ := InvR.run_pushes ops Deque.new [] InvR.of_new hp (by
    simp only [List.length_nil]
    omega)
  have hlenS := runSpec_length_pushes ops [] hp
  simp only [List.length_nil, Nat.zero_add] at hlenS
  have hsz : d.sz_ = ops.length := by rw [hinv.sz, hlenS]
  have hw := hinv.no_wrap
  obtain ⟨data1, e1, hc1⟩ := erase_cells trivial d (fun i => (runSpec ops [])[i]?) k fuel
    (by omega) (by omega) (by omega)
    (by
      intro i hi
      have hi1 : i < (runSpec ops []).length := by omega
      exact ⟨(runSpec ops [])[i], List.getElem?_eq_getElem hi1⟩)
    (by
      intro i hi
      show cellAt d.data_ (d.ia_front + i) = (runSpec ops [])[i]?
      rw [hinv.cells i (by omega), List.getElem?_eq_getElem (by omega)])
  refine ⟨d, ⟨data1, d.data_sz_, d.sz_ - 1, d.ia_front⟩, e, hsz, ?_, ?_, ?_, ?_⟩
  · rw [hinv.begin_plus k hk31]
    exact e1
  · show d.sz_ - 1 = ops.length - 1
    rw [hsz]
  · intro i v hik hv
    apply index_of_cellAt
    · show d.ia_front + i < 2 ^ 64
      omega
    · show cellAt data1 (d.ia_front + i) = some v
      have hc : cellAt data1 (d.ia_front + i)
          = if k ≤ i then (runSpec ops [])[i + 1]? else (runSpec ops [])[i]? :=
        hc1 i (by omega)
      rw [hc, if_neg (by omega), hv]
  · intro i v hik hv
    have hi : i + 1 < (runSpec ops []).length := by
      by_contra hcon
      rw [List.getElem?_eq_none (by omega)] at hv
      simp at hv
    apply index_of_cellAt
    · show d.ia_front + i < 2 ^ 64
      omega
    · show cellAt data1 (d.ia_front + i) = some v
      have hc : cellAt data1 (d.ia_front + i)
          = if k ≤ i then (runSpec ops [])[i + 1]? else (runSpec ops [])[i]? :=
        hc1 i (by omega)
      rw [hc, if_pos hik, hv]

/-- Claim C12, amended, on the scenario of the specification: `Deque(5, 'x')`, then
`erase(begin() + 2)`. -/
theorem erase_shifts_left_witness :
    ∃ d d1, Deque.fill 5 120 = .ok d ∧ size d = 5 ∧
      erase false 5 d ((begin_ d).plus (to_int 2)) = .ok d1 ∧ size d1 = 4 ∧
      index d1 0 = .ok 120 ∧ index d1 1 = .ok 120 ∧ index d1 2 = .ok 120 ∧
      index d1 3 = .ok 120 := by
  obtain ⟨d, d1, h1, h2, h3, h4, h5, h6⟩ :=
    erase_shifts_left false (List.replicate 5 (Op.push_back 120)) (by decide) (by decide)
      2 (by decide) (by decide) 5 (by decide)
  refine ⟨d, d1, ?_, h2, h3, h4, h5 0 120 (by decide) rfl, h5 1 120 (by decide) rfl,
    h6 2 120 (by decide) rfl, h6 3 120 (by decide) rfl⟩
  unfold Deque.fill
  rw [fill_loop_eq_run]
  exact h1

/-- Claim C12 fails as stated: on the deque built by `2^31 + 1` calls of `push_back(0)` and
for `k = 2^31 < size()`, the argument of `operator+(int)` is `-2^31`, the iterator
`begin() + k` designates a directory slot far outside the directory, and `erase` applies the
destructor there. -/
theorem erase_index_overflows_int :
    ∃ d, run (List.replicate 2147483649 (Op.push_back 0)) (Deque.new : Deque Nat) = .ok d ∧
      size d = 2147483649 ∧
      erase false 2147483649 d ((begin_ d).plus (to_int 2147483648)) = .error .out_of_bounds ∧
      erase true 2147483649 d ((begin_ d).plus (to_int 2147483648)) = .error .out_of_bounds := by
  have hp : ∀ op ∈ List.replicate 2147483649 (Op.push_back (0 : Nat)), op.isPush = true := by
    intro op hop
    rw [List.eq_of_mem_replicate hop]
    rfl
  obtain ⟨d, e, hinv⟩ := InvR.run_pushes _ Deque.new [] InvR.of_new hp (by
    rw [List.length_nil, List.length_replicate]
    norm_num)
  have hlenS := runSpec_length_pushes _ [] hp
  rw [List.length_nil, List.length_replicate, Nat.zero_add] at hlenS
  have hsz : d.sz_ = 2147483649 := by rw [hinv.sz, hlenS]
  have hw := hinv.no_wrap
  have hb := hinv.dir_bound (by omega)
  have hlen := hinv.len
  have hti : to_int 2147483648 = -2147483648 := by decide
  have hit : (begin_ d).plus (to_int 2147483648)
      = base_iterator.mk (((d.ia_front / 16 : Nat) : Int) + 1152921504472629248)
          (d.ia_front % 16) := by
    unfold begin_ base_iterator.plus
    rw [hti, ofDeque_at_address d 0 (by omega), Nat.add_zero]
    unfold base_iterator.at_address
    rw [add_assign_split _ _ _ (by omega) (by norm_num) (by norm_num)]
    simp only [base_iterator.mk.injEq]
    constructor
    · rw [if_pos (by omega)]
      omega
    · omega
  have hstop : (base_iterator.mk (((d.ia_front / 16 : Nat) : Int) + 1152921504472629248)
      (d.ia_front % 16)).lt ((end_ d).minus_int 1) = false := by
    rw [end_minus_one_at_address d (by omega) (by omega)]
    unfold base_iterator.lt base_iterator.at_address
    simp only [Bool.or_eq_false_iff, Bool.and_eq_false_iff, decide_eq_false_iff_not]
    omega
  have hoob : d.data_[(((d.ia_front / 16 : Nat) : Int) + 1152921504472629248).toNat]? = none := by
    apply List.getElem?_eq_none
    omega
  have key : ∀ t, erase t 2147483649 d
      (base_iterator.mk (((d.ia_front / 16 : Nat) : Int) + 1152921504472629248)
        (d.ia_front % 16)) = .error .out_of_bounds := by
    intro t
    unfold erase
    rw [erase_loop_stop t _ d _ hstop]
    simp only
    rw [if_pos (by omega)]
    unfold destroy_t
    rw [hoob]
  refine ⟨d, e, hsz, ?_, ?_⟩
  · rw [hit]; exact key false
  · rw [hit]; exact key true

/-- Claim C13, evaluated on the code: on the deque built by `push_back(1)`, both
`insert(begin(), 9)` and `insert(end(), 9)` assign to the cell at `end()`, which holds no
constructed element (`*i_end = *(i_end - 1)`, respectively `*it = el`); for an element type
that is not trivially copyable this is an assignment to raw storage.  Only when `T` is
trivially copyable does `insert(begin(), 9)` give the contents `[9, 1]`. -/
theorem insert_assigns_to_raw_cell :
    run [Op.push_back 1] (Deque.new : Deque Nat)
        = .ok ⟨[Slot.null, Slot.owned (some 1 :: List.replicate 15 none)], 2, 1, 16⟩ ∧
    (∀ fuel, insert false (fuel + 1)
        (⟨[Slot.null, Slot.owned (some 1 :: List.replicate 15 none)], 2, 1, 16⟩ : Deque Nat)
        (begin_ (⟨[Slot.null, Slot.owned (some 1 :: List.replicate 15 none)], 2, 1, 16⟩ :
          Deque Nat)) 9 = .error .uninit) ∧
    (∀ fuel, insert false fuel
        (⟨[Slot.null, Slot.owned (some 1 :: List.replicate 15 none)], 2, 1, 16⟩ : Deque Nat)
        (end_ (⟨[Slot.null, Slot.owned (some 1 :: List.replicate 15 none)], 2, 1, 16⟩ :
          Deque Nat)) 9 = .error .uninit) ∧
    (∃ d1, insert true 1
        (⟨[Slot.null, Slot.owned (some 1 :: List.replicate 15 none)], 2, 1, 16⟩ : Deque Nat)
        (begin_ (⟨[Slot.null, Slot.owned (some 1 :: List.replicate 15 none)], 2, 1, 16⟩ :
          Deque Nat)) 9 = .ok d1 ∧ size d1 = 2 ∧ index d1 0 = .ok 9 ∧ index d1 1 = .ok 1) := by
  refine ⟨rfl, fun fuel => rfl, fun fuel => ?_, _, rfl, rfl, rfl, rfl⟩
  cases fuel <;> rfl

/-- Claim C14, evaluated on the code: on the deque built by `push_back(1)`, `erase(end())`
applies the destructor to the cell at `end()`, which holds no constructed element, and
decrements `sz_`: for a `T` that is not trivially destructible the call is undefined, and
for a trivially destructible `T` it leaves `size() == 0` instead of `1`. -/
theorem erase_at_end_is_not_a_no_op :
    run [Op.push_back 1] (Deque.new : Deque Nat)
        = .ok ⟨[Slot.null, Slot.owned (some 1 :: List.replicate 15 none)], 2, 1, 16⟩ ∧
    (∀ fuel, erase false fuel
        (⟨[Slot.null, Slot.owned (some 1 :: List.replicate 15 none)], 2, 1, 16⟩ : Deque Nat)
        (end_ (⟨[Slot.null, Slot.owned (some 1 :: List.replicate 15 none)], 2, 1, 16⟩ :
          Deque Nat)) = .error .uninit) ∧
    (∀ fuel, erase true fuel
        (⟨[Slot.null, Slot.owned (some 1 :: List.replicate 15 none)], 2, 1, 16⟩ : Deque Nat)
        (end_ (⟨[Slot.null, Slot.owned (some 1 :: List.replicate 15 none)], 2, 1, 16⟩ :
          Deque Nat))
      = .ok ⟨[Slot.null, Slot.owned (some 1 :: List.replicate 15 none)], 2, 0, 16⟩) := by
  refine ⟨rfl, fun fuel => ?_, fun fuel => ?_⟩
  · cases fuel <;> rfl
  · cases fuel <;> rfl

/-- Claim C15, evaluated on the code: `push_back` is the code up to the placement
construction followed by the construction (first part), and when the push does not fill the
last cell of a block a throwing copy leaves the state untouched (second part); but on the
deque built by 15 calls of `push_back`, where the 16th push fills cell 15, a throwing copy
leaves `block_count == 4` instead of `2`, `ia_front == 32` instead of `16` and a freshly
acquired block in directory slot 3 (third part). -/
theorem push_back_throw_keeps_growth :
    (∀ (d : Deque Nat) (el : Nat), push_back d el = (push_back_throw d).bind (fun d1 =>
      (construct d1.data_ (ib_from_id d1 d1.sz_) (ic_from_id d1 d1.sz_) el).bind (fun data =>
        .ok { d1 with data_ := data, sz_ := wrap (d1.sz_ + 1) }))) ∧
    (∀ d : Deque Nat, ic_from_id d d.sz_ ≠ kBlockSize_ - 1 → push_back_throw d = .ok d) ∧
    ∃ d, run ((List.range 15).map Op.push_back) (Deque.new : Deque Nat) = .ok d ∧
      d.sz_ = 15 ∧ d.data_sz_ = 2 ∧ d.ia_front = 16 ∧ d.data_.length = 2 ∧
      ∃ d1, push_back_throw d = .ok d1 ∧
        d1.sz_ = 15 ∧ d1.data_sz_ = 4 ∧ d1.ia_front = 32 ∧ d1.data_[3]? = some new_block :=
  ⟨push_back_after_throw_point, push_back_throw_inside_block,
    _, rfl, rfl, rfl, rfl, rfl, _, rfl, rfl, rfl, rfl, rfl⟩

/-- Claim C16, evaluated on the code: `crbegin()` wraps `cbegin()`, so for every deque
`crbegin() == crend()` and a traversal from `crbegin()` to `crend()` visits nothing; on the
deque built by `push_back(1); push_back(2)`, `rbegin()` wraps `end()` and dereferences to
`operator[](size() - 1) == 2`, whereas `crbegin()` does not wrap `cend()` and dereferencing
it reads through the null directory entry before `begin()`. -/
theorem crbegin_wraps_cbegin :
    (∀ d : Deque Nat, (crbegin d).current = cbegin d ∧ crbegin d = crend d) ∧
    ∃ d, run [Op.push_back 1, Op.push_back 2] (Deque.new : Deque Nat) = .ok d ∧
      (rbegin d).current = end_ d ∧ (rend d).current = begin_ d ∧ rbegin d ≠ rend d ∧
      (rbegin d).deref d = .ok 2 ∧ index d (size d - 1) = .ok 2 ∧
      (crbegin d).current ≠ cend d ∧ (crbegin d).deref d = .error .null_deref :=
  ⟨fun _ => ⟨rfl, rfl⟩, _, rfl, rfl, rfl, by decide, rfl, rfl, by decide, rfl⟩

/-- Claim C17, evaluated on the code: for an iterator at slot `s`, cell `c < 16`, and an
`int` `n`, `it += n` sets the cell to `(c + n) mod 16`, but moves the slot by
`floor((c + n) / 16)` only when `c + n >= 0`; when `c + n < 0` the slot moves by
`2^60 + floor((c + n) / 16)`. -/
theorem add_assign_unsigned (s : Int) (c : Nat) (n : Int) (hc : c < 16)
    (hlo : -2 ^ 31 ≤ n) (hhi : n < 2 ^ 31) :
    (base_iterator.mk s c).add_assign n
      = { it_ := s + (if (c : Int) + n < 0 then 2 ^ 60 else 0) + ((c : Int) + n) / 16
          cell_ := (((c : Int) + n) % 16).toNat } :=
  add_assign_split s c n hc hlo hhi

/-- Claim C17 at the example of the claim: slot 5, cell 0, `n = -1` gives cell 15 but slot
`5 + 2^60 - 1`, not slot 4. -/
theorem add_assign_unsigned_witness :
    (base_iterator.mk 5 0).add_assign (-1)
      = { it_ := 5 + 1152921504606846976 + (-1), cell_ := 15 } :=
  add_assign_unsigned 5 0 (-1) (by decide) (by decide) (by decide)

/-- Claim C18, evaluated on the code: whenever `pop_back()` or `pop_front()` returns with
`size() == 0`, `ia_front` is `0`, not the value `kBlockSize_ = 16` of a newly constructed
deque. -/
theorem pop_to_empty_resets_front_to_zero {α : Type} (d d1 : Deque α)
    (h : pop_back d = .ok d1 ∨ pop_front d = .ok d1) (he : size d1 = 0) :
    d1.ia_front = 0 := by
  rcases h with h | h
  · obtain ⟨h1, h2⟩ := pop_back_result d d1 h
    have he1 : usub d.sz_ 1 = 0 := by rw [← h1]; exact he
    rw [h2, if_pos he1]
  · obtain ⟨h1, h2⟩ := pop_front_result d d1 h
    have he1 : usub d.sz_ 1 = 0 := by rw [← h1]; exact he
    rw [h2, if_pos he1]

/-- Claim C18 on the deque built by `push_back(1)`: after `pop_back()` the front offset is
`0`, while a newly constructed deque has front offset `16`. -/
theorem pop_to_empty_resets_front_to_zero_witness :
    run [Op.push_back 1] (Deque.new : Deque Nat)
        = .ok ⟨[Slot.null, Slot.owned (some 1 :: List.replicate 15 none)], 2, 1, 16⟩ ∧
      pop_back (⟨[Slot.null, Slot.owned (some 1 :: List.replicate 15 none)], 2, 1, 16⟩ : Deque Nat)
        = .ok ⟨[Slot.null, Slot.dangling], 2, 0, 0⟩ ∧
      (⟨[Slot.null, Slot.dangling], 2, 0, 0⟩ : Deque Nat).ia_front = 0 ∧
      (Deque.new : Deque Nat).ia_front = 16 :=
  ⟨rfl, rfl,
    pop_to_empty_resets_front_to_zero
      (⟨[Slot.null, Slot.owned (some 1 :: List.replicate 15 none)], 2, 1, 16⟩ : Deque Nat)
      ⟨[Slot.null, Slot.dangling], 2, 0, 0⟩ (Or.inl rfl) rfl,
    rfl⟩

/-- Claim C19: for a deque state with `block_count = m` (the length of its directory) whose
live range lies inside the directory, and every `n >= m` (below `2^60`), `reallocate(n)`
sets `block_count` to `n`, places old slot `k` at new slot `k + g` with `g = (n - m) / 2`,
leaves every other new slot null, increases `ia_front` by `16 * g`, and leaves `size()` and
every `operator[](i)`, `i < size()`, unchanged. -/
theorem reallocate_recentres {α : Type} (d : Deque α) (n : Nat)
    (hlen : d.data_.length = d.data_sz_) (hmn : d.data_sz_ ≤ n) (hn : n < 2 ^ 60)
    (hlive : d.ia_front + d.sz_ ≤ 16 * d.data_sz_) :
    ∃ d1, reallocate d n = .ok d1 ∧ d1.data_sz_ = n ∧ d1.data_.length = n ∧
      (∀ k, k < d.data_sz_ → d1.data_[k + (n - d.data_sz_) / 2]? = d.data_[k]?) ∧
      (∀ j, j < n → (j < (n - d.data_sz_) / 2 ∨ (n - d.data_sz_) / 2 + d.data_sz_ ≤ j) →
        d1.data_[j]? = some Slot.null) ∧
      d1.ia_front = d.ia_front + 16 * ((n - d.data_sz_) / 2) ∧
      size d1 = size d ∧
      ∀ i, i < size d → index d1 i = index d i := by
  have hg : usub n d.data_sz_ / 2 = (n - d.data_sz_) / 2 := by unfold usub; omega
  have hslot : ∀ j, j < n →
      ((List.range n).map (fun i =>
            if i < (n - d.data_sz_) / 2 then Slot.null
            else if i < (n - d.data_sz_) / 2 + d.data_sz_ then
              d.data_.getD (i - (n - d.data_sz_) / 2) Slot.null
            else Slot.null))[j]?
        = some (if j < (n - d.data_sz_) / 2 then Slot.null
            else if j < (n - d.data_sz_) / 2 + d.data_sz_ then
              d.data_.getD (j - (n - d.data_sz_) / 2) Slot.null
            else Slot.null) := by
    intro j hj
    simp [List.getElem?_map, List.getElem?_range, hj]
  have hkeep : ∀ k, k < d.data_sz_ →
      ((List.range n).map (fun i =>
            if i < (n - d.data_sz_) / 2 then Slot.null
            else if i < (n - d.data_sz_) / 2 + d.data_sz_ then
              d.data_.getD (i - (n - d.data_sz_) / 2) Slot.null
            else Slot.null))[k + (n - d.data_sz_) / 2]? = d.data_[k]? := by
    intro k hk
    rw [hslot _ (by omega), if_neg (by omega), if_pos (by omega)]
    have e : k + (n - d.data_sz_) / 2 - (n - d.data_sz_) / 2 = k := by omega
    rw [e, List.getD_eq_getElem?_getD, List.getElem?_eq_getElem (by omega)]
    rfl
  have hfront : wrap (d.ia_front + wrap ((n - d.data_sz_) / 2 * kBlockSize_))
      = d.ia_front + 16 * ((n - d.data_sz_) / 2) := by
    unfold wrap kBlockSize_
    omega
  refine ⟨{ data_ := (List.range n).map (fun i =>
              if i < (n - d.data_sz_) / 2 then Slot.null
              else if i < (n - d.data_sz_) / 2 + d.data_sz_ then
                d.data_.getD (i - (n - d.data_sz_) / 2) Slot.null
              else Slot.null),
            data_sz_ := n, sz_ := d.sz_,
            ia_front := wrap (d.ia_front + wrap ((n - d.data_sz_) / 2 * kBlockSize_)) },
    ?_, rfl, by simp, hkeep, ?_, hfront, rfl, ?_⟩
  · unfold reallocate
    simp only [hg]
    rw [if_pos ⟨by omega, by omega⟩]
  · intro j hj hout
    rw [hslot j hj]
    rcases hout with h | h
    · rw [if_pos h]
    · rw [if_neg (by omega), if_neg (by omega)]
  · intro i hi
    change i < d.sz_ at hi
    unfold DequeModel.index ib_from_id ic_from_id ia_from_id read
    simp only [hfront]
    have e1 : wrap (i + (d.ia_front + 16 * ((n - d.data_sz_) / 2))) / kBlockSize_
        = wrap (i + d.ia_front) / kBlockSize_ + (n - d.data_sz_) / 2 := by
      unfold wrap kBlockSize_; omega
    have e2 : wrap (i + (d.ia_front + 16 * ((n - d.data_sz_) / 2))) % kBlockSize_
        = wrap (i + d.ia_front) % kBlockSize_ := by
      unfold wrap kBlockSize_; omega
    rw [e1, e2, hkeep _ (by unfold wrap kBlockSize_; omega)]

/-- Claim C19 on the deque built by `push_front(3); push_back(4)` and `n = 7`. -/
theorem reallocate_recentres_witness :
    ∃ d1, run [Op.push_front 3, Op.push_back 4] (Deque.new : Deque Nat)
        = .ok ⟨[Slot.owned (List.replicate 15 none ++ [some 3]),
                Slot.owned (some 4 :: List.replicate 15 none)], 2, 2, 15⟩ ∧
      reallocate (⟨[Slot.owned (List.replicate 15 none ++ [some 3]),
                Slot.owned (some 4 :: List.replicate 15 none)], 2, 2, 15⟩ : Deque Nat) 7
        = .ok d1 ∧
      d1.data_sz_ = 7 ∧
      d1.data_ = [Slot.null, Slot.null, Slot.owned (List.replicate 15 none ++ [some 3]),
                Slot.owned (some 4 :: List.replicate 15 none), Slot.null, Slot.null, Slot.null] ∧
      d1.ia_front = 15 + 16 * 2 ∧ size d1 = 2 ∧ index d1 0 = .ok 3 ∧ index d1 1 = .ok 4 := by
  obtain ⟨d1, h1, h2, _, _, _, h6, h7, h8⟩ :=
    reallocate_recentres (⟨[Slot.owned (List.replicate 15 none ++ [some 3]),
                Slot.owned (some 4 :: List.replicate 15 none)], 2, 2, 15⟩ : Deque Nat) 7
      rfl (by decide) (by decide) (by decide)
  have hd : d1 = ⟨[Slot.null, Slot.null, Slot.owned (List.replicate 15 none ++ [some 3]),
      Slot.owned (some 4 :: List.replicate 15 none), Slot.null, Slot.null, Slot.null],
      7, 2, 47⟩ := (Except.ok.inj (h1.symm.trans rfl))
  exact ⟨d1, rfl, h1, h2, by rw [hd], h6, h7, (h8 0 (by decide)).trans rfl,
    (h8 1 (by decide)).trans rfl⟩

/-- Claim C20, amended: on a non-empty deque state that satisfies the Store invariant (and
whose flattened addresses fit `size_t`), `pop_back()` releases a block exactly when it is the
block of the removed element and that element was at cell `0`, and `pop_front()` exactly
when it is the block of the removed element and that element was at cell `15`; the block of
the removed element stays owned otherwise, and every other directory slot is left as it was.
Hence no block that still contains a live cell after the pop is released, and when the deque
had at least two elements the block of the removed element is released exactly when no cell
of it is live after the pop. -/
theorem pop_releases_at_boundary_cell {α : Type} (d : Deque α) (hinv : StoreInv d)
    (hne : 0 < d.sz_) (hw : d.ia_front + d.sz_ < 2 ^ 64) :
    (∃ d1, pop_back d = .ok d1 ∧ size d1 = size d - 1 ∧
      (∀ b, Released d d1 b ↔
        (b = (d.ia_front + d.sz_ - 1) / 16 ∧ (d.ia_front + d.sz_ - 1) % 16 = 0)) ∧
      ((d.ia_front + d.sz_ - 1) % 16 ≠ 0 →
        ∃ cells, d1.data_[(d.ia_front + d.sz_ - 1) / 16]? = some (Slot.owned cells)) ∧
      (∀ b, b ≠ (d.ia_front + d.sz_ - 1) / 16 → d1.data_[b]? = d.data_[b]?) ∧
      (∀ b, LiveIn d1 b → ¬ Released d d1 b) ∧
      (2 ≤ size d → (Released d d1 ((d.ia_front + d.sz_ - 1) / 16) ↔
        ¬ LiveIn d1 ((d.ia_front + d.sz_ - 1) / 16)))) ∧
    (∃ d1, pop_front d = .ok d1 ∧ size d1 = size d - 1 ∧
      (∀ b, Released d d1 b ↔ (b = d.ia_front / 16 ∧ d.ia_front % 16 = 15)) ∧
      (d.ia_front % 16 ≠ 15 →
        ∃ cells, d1.data_[d.ia_front / 16]? = some (Slot.owned cells)) ∧
      (∀ b, b ≠ d.ia_front / 16 → d1.data_[b]? = d.data_[b]?) ∧
      (∀ b, LiveIn d1 b → ¬ Released d d1 b) ∧
      (2 ≤ size d → (Released d d1 (d.ia_front / 16) ↔ ¬ LiveIn d1 (d.ia_front / 16)))) := by
  constructor
  · -- pop_back
    obtain ⟨v, hv⟩ := hinv.cell_live (d.sz_ - 1) (by omega)
    have ea : d.ia_front + (d.sz_ - 1) = d.ia_front + d.sz_ - 1 := by omega
    rw [ea] at hv
    obtain ⟨cells0, hb0, _⟩ := cellAt_some hv
    obtain ⟨data2, e, hdang, hown, hframe⟩ := pop_back_live d hne hw v hv
    have hrel : ∀ b, Released d
        ⟨data2, d.data_sz_, d.sz_ - 1, if d.sz_ - 1 = 0 then 0 else d.ia_front⟩ b ↔
        (b = (d.ia_front + d.sz_ - 1) / 16 ∧ (d.ia_front + d.sz_ - 1) % 16 = 0) := by
      intro b
      simp only [Released]
      constructor
      · rintro ⟨⟨cells, h1⟩, h2⟩
        by_cases hbb : b = (d.ia_front + d.sz_ - 1) / 16
        · refine ⟨hbb, ?_⟩
          by_contra hc
          obtain ⟨cells1, hb1⟩ := hown hc
          rw [hbb, hb1] at h2
          simp at h2
        · rw [hframe b hbb, h1] at h2
          simp at h2
      · rintro ⟨hbb, hc⟩
        rw [hbb]
        exact ⟨⟨cells0, hb0⟩, hdang hc⟩
    have hlive : LiveIn ⟨data2, d.data_sz_, d.sz_ - 1, if d.sz_ - 1 = 0 then 0 else d.ia_front⟩
        ((d.ia_front + d.sz_ - 1) / 16) ↔ (2 ≤ d.sz_ ∧ (d.ia_front + d.sz_ - 1) % 16 ≠ 0) := by
      simp only [LiveIn, kBlockSize_]
      constructor
      · rintro ⟨i, hi, hblk⟩
        rw [if_neg (by omega)] at hblk
        omega
      · rintro ⟨h2, hc⟩
        refine ⟨d.sz_ - 2, by omega, ?_⟩
        rw [if_neg (by omega)]
        omega
    refine ⟨_, e, rfl, hrel, hown, hframe, ?_, ?_⟩
    · intro b hl hr
      obtain ⟨hbb, hc⟩ := (hrel b).1 hr
      rw [hbb] at hl
      exact (hlive.1 hl).2 hc
    · intro h2
      constructor
      · intro hr hl
        exact (hlive.1 hl).2 ((hrel _).1 hr).2
      · intro hnl
        apply (hrel _).2
        refine ⟨rfl, ?_⟩
        by_contra hc
        exact hnl (hlive.2 ⟨h2, hc⟩)
  · -- pop_front
    obtain ⟨v, hv⟩ := hinv.cell_live 0 hne
    rw [Nat.add_zero] at hv
    obtain ⟨cells0, hb0, _⟩ := cellAt_some hv
    obtain ⟨data2, e, hdang, hown, hframe⟩ := pop_front_live d hne hw v hv
    have hrel : ∀ b, Released d
        ⟨data2, d.data_sz_, d.sz_ - 1, if d.sz_ - 1 = 0 then 0 else d.ia_front + 1⟩ b ↔
        (b = d.ia_front / 16 ∧ d.ia_front % 16 = 15) := by
      intro b
      simp only [Released]
      constructor
      · rintro ⟨⟨cells, h1⟩, h2⟩
        by_cases hbb : b = d.ia_front / 16
        · refine ⟨hbb, ?_⟩
          by_contra hc
          obtain ⟨cells1, hb1⟩ := hown hc
          rw [hbb, hb1] at h2
          simp at h2
        · rw [hframe b hbb, h1] at h2
          simp at h2
      · rintro ⟨hbb, hc⟩
        rw [hbb]
        exact ⟨⟨cells0, hb0⟩, hdang hc⟩
    have hlive : LiveIn
        ⟨data2, d.data_sz_, d.sz_ - 1, if d.sz_ - 1 = 0 then 0 else d.ia_front + 1⟩
        (d.ia_front / 16) ↔ (2 ≤ d.sz_ ∧ d.ia_front % 16 ≠ 15) := by
      simp only [LiveIn, kBlockSize_]
      constructor
      · rintro ⟨i, hi, hblk⟩
        rw [if_neg (by omega)] at hblk
        omega
      · rintro ⟨h2, hc⟩
        refine ⟨0, by omega, ?_⟩
        rw [if_neg (by omega)]
        omega
    refine ⟨_, e, rfl, hrel, hown, hframe, ?_, ?_⟩
    · intro b hl hr
      obtain ⟨hbb, hc⟩ := (hrel b).1 hr
      rw [hbb] at hl
      exact (hlive.1 hl).2 hc
    · intro h2
      constructor
      · intro hr hl
        exact (hlive.1 hl).2 ((hrel _).1 hr).2
      · intro hnl
        apply (hrel _).2
        refine ⟨rfl, ?_⟩
        by_contra hc
        exact hnl (hlive.2 ⟨h2, hc⟩)

/-- Claim C20, amended, on the two-element deque built by `push_front(3); push_back(4)`,
whose elements lie in cell 15 of block `0` and cell 0 of block `1`: `pop_back()` releases
block `1`, which has no live cell afterwards, and leaves block `0`, which still holds the
element `3`, untouched; `pop_front()` releases block `0` and leaves block `1` untouched. -/
theorem pop_releases_at_boundary_cell_witness :
    run [Op.push_front 3, Op.push_back 4] (Deque.new : Deque Nat)
        = .ok ⟨[Slot.owned (List.replicate 15 none ++ [some 3]),
                Slot.owned (some 4 :: List.replicate 15 none)], 2, 2, 15⟩ ∧
    (∃ d1, pop_back (⟨[Slot.owned (List.replicate 15 none ++ [some 3]),
                Slot.owned (some 4 :: List.replicate 15 none)], 2, 2, 15⟩ : Deque Nat)
        = .ok d1 ∧ size d1 = 1 ∧
      Released (⟨[Slot.owned (List.replicate 15 none ++ [some 3]),
                Slot.owned (some 4 :: List.replicate 15 none)], 2, 2, 15⟩ : Deque Nat) d1 1 ∧
      ¬ LiveIn d1 1 ∧ LiveIn d1 0 ∧
      ¬ Released (⟨[Slot.owned (List.replicate 15 none ++ [some 3]),
                Slot.owned (some 4 :: List.replicate 15 none)], 2, 2, 15⟩ : Deque Nat) d1 0 ∧
      d1.data_[0]? = some (Slot.owned (List.replicate 15 none ++ [some 3]))) ∧
    (∃ d1, pop_front (⟨[Slot.owned (List.replicate 15 none ++ [some 3]),
                Slot.owned (some 4 :: List.replicate 15 none)], 2, 2, 15⟩ : Deque Nat)
        = .ok d1 ∧ size d1 = 1 ∧
      Released (⟨[Slot.owned (List.replicate 15 none ++ [some 3]),
                Slot.owned (some 4 :: List.replicate 15 none)], 2, 2, 15⟩ : Deque Nat) d1 0 ∧
      ¬ LiveIn d1 0 ∧ LiveIn d1 1 ∧
      ¬ Released (⟨[Slot.owned (List.replicate 15 none ++ [some 3]),
                Slot.owned (some 4 :: List.replicate 15 none)], 2, 2, 15⟩ : Deque Nat) d1 1 ∧
      d1.data_[1]? = some (Slot.owned (some 4 :: List.replicate 15 none))) := by
  obtain ⟨⟨d1, e1, hs1, hrel1, _, hfr1, hnr1, hiff1⟩, ⟨d2, e2, hs2, hrel2, _, hfr2, hnr2, hiff2⟩⟩ :=
    pop_releases_at_boundary_cell (⟨[Slot.owned (List.replicate 15 none ++ [some 3]),
                Slot.owned (some 4 :: List.replicate 15 none)], 2, 2, 15⟩ : Deque Nat)
      StoreInv_two_blocks (by decide) (by decide)
  have hd1 : d1 = ⟨[Slot.owned (List.replicate 15 none ++ [some 3]), Slot.dangling],
      2, 1, 15⟩ := Except.ok.inj (e1.symm.trans rfl)
  have hd2 : d2 = ⟨[Slot.dangling, Slot.owned (some 4 :: List.replicate 15 none)],
      2, 1, 16⟩ := Except.ok.inj (e2.symm.trans rfl)
  have hr1 := (hrel1 1).2 ⟨by decide, by decide⟩
  have hr2 := (hrel2 0).2 ⟨by decide, by decide⟩
  have hl1 : LiveIn d1 0 := by
    rw [hd1]
    exact ⟨0, by decide, by decide⟩
  have hl2 : LiveIn d2 1 := by
    rw [hd2]
    exact ⟨0, by decide, by decide⟩
  refine ⟨rfl, ⟨d1, e1, hs1, hr1, (hiff1 (by decide)).1 hr1, hl1, hnr1 0 hl1,
      (hfr1 0 (by decide)).trans rfl⟩,
    ⟨d2, e2, hs2, hr2, (hiff2 (by decide)).1 hr2, hl2, hnr2 1 hl2,
      (hfr2 1 (by decide)).trans rfl⟩⟩

/-- Claim C20 fails as stated: the deque built by `push_front(1)` satisfies the Store
invariant and holds its element in block `0`, cell 15; `pop_back()` empties the deque, so no
cell of block `0` is live afterwards, but the block is not released. -/
theorem pop_back_keeps_emptied_block :
    run [Op.push_front 1] (Deque.new : Deque Nat)
        = .ok ⟨[Slot.owned (List.replicate 15 none ++ [some 1]),
                Slot.owned (List.replicate 16 none)], 2, 1, 15⟩ ∧
      StoreInv (⟨[Slot.owned (List.replicate 15 none ++ [some 1]),
                Slot.owned (List.replicate 16 none)], 2, 1, 15⟩ : Deque Nat) ∧
      (15 + 1 - 1) / 16 = 0 ∧
      pop_back (⟨[Slot.owned (List.replicate 15 none ++ [some 1]),
                Slot.owned (List.replicate 16 none)], 2, 1, 15⟩ : Deque Nat)
        = .ok ⟨[Slot.owned (List.replicate 16 none), Slot.owned (List.replicate 16 none)],
                2, 0, 0⟩ ∧
      ¬ LiveIn (⟨[Slot.owned (List.replicate 16 none), Slot.owned (List.replicate 16 none)],
                2, 0, 0⟩ : Deque Nat) 0 ∧
      ¬ Released (⟨[Slot.owned (List.replicate 15 none ++ [some 1]),
                Slot.owned (List.replicate 16 none)], 2, 1, 15⟩ : Deque Nat)
          ⟨[Slot.owned (List.replicate 16 none), Slot.owned (List.replicate 16 none)],
                2, 0, 0⟩ 0 := by
  refine ⟨rfl, StoreInv_single_front, rfl, rfl, ?_, ?_⟩
  · rintro ⟨i, hi, _⟩
    simp at hi
  · rintro ⟨_, h2⟩
    simp at h2

end DequeModel
